import Mathlib

/-!
Verification development for the bookkeeping core of the ulf-dash repository
(`bookkeeping.py`): overlap detection over time segments, duplicate-file
resolution, expected-artifact planning, staleness resolution, the file-time
cache and the bookkeeping journal.

Timestamps (numpy `datetime64` values) are modelled as integers (ticks in
seconds); Python strings are modelled as lists of characters.
-/

namespace UlfDash

/-- A time segment: the start and stop instants of a sensor file.
Mirrors the two-element inner lists consumed by `find_overlaping_timesegments`. -/
structure TimeSeg where
  start : Int
  stop : Int
  deriving Repr, DecidableEq

instance : Inhabited TimeSeg := ⟨⟨0, 0⟩⟩

/-- The overlap test used by `find_overlaping_timesegments`:
`(_ti[0] <= _tj[0] <= _ti[1]) or (_ti[0] <= _tj[1] <= _ti[1])`. -/
def overlapCond (ti tj : TimeSeg) : Bool :=
  (decide (ti.start ≤ tj.start) && decide (tj.start ≤ ti.stop)) ||
  (decide (ti.start ≤ tj.stop) && decide (tj.stop ≤ ti.stop))

/-- Inner loop of `find_overlaping_timesegments`:
`for j, _tj in enumerate(tsegs[i+1:]): if cond: olap_inx[-1].append(i+j+1)`.
`k` is the absolute index of the head of `rest` in the original list. -/
def olapRow (ti : TimeSeg) : List TimeSeg → Nat → List Nat
  | [], _ => []
  | tj :: rest, k =>
      (if overlapCond ti tj then [k] else []) ++ olapRow ti rest (k + 1)

/-- Outer loop of `find_overlaping_timesegments`; `i` is the absolute index of
the head of the remaining list. -/
def olapAux : List TimeSeg → Nat → List (List Nat)
  | [], _ => []
  | ti :: rest, i => olapRow ti rest (i + 1) :: olapAux rest (i + 1)

/-- `find_overlaping_timesegments` from `bookkeeping.py`: for each index `i`
the list of later indices whose segments pass the overlap test against
segment `i`. -/
def find_overlaping_timesegments (tsegs : List TimeSeg) : List (List Nat) :=
  olapAux tsegs 0

/-- Python strings are modelled as lists of characters. -/
abbrev PStr := List Char

/-- A per-file record as consumed by `_filter_out_duplicate_timestamp_files`:
the four-element list `[path, start-time, stop-time, overlap-index-list]`
assembled by `_get_loc_file_details` and `_update_duplicate_timestamp_files`
(the keep flag, element 4, is appended by the filter itself). -/
structure LocEntry where
  path : PStr
  tstart : Int
  tstop : Int
  olap : List Nat
  deriving Repr, DecidableEq

instance : Inhabited LocEntry := ⟨⟨[], 0, 0, []⟩⟩

/-- The decimal digit characters (Python's rendering of a digit). -/
def digitChar (d : Nat) : Char :=
  ['0', '1', '2', '3', '4', '5', '6', '7', '8', '9'].getD d '*'

/-- Decimal digits of `n`, fuel-based so that it reduces in the kernel. -/
def natDigitsAux : Nat → Nat → List Char
  | 0, _ => []
  | fuel + 1, n =>
      if n < 10 then [digitChar n]
      else natDigitsAux fuel (n / 10) ++ [digitChar (n % 10)]

/-- Decimal rendering of a natural number. -/
def natDigits (n : Nat) : List Char :=
  natDigitsAux (n + 1) n

/-- Decimal rendering of an integer (model of Python `str` on ints). -/
def intDigits (t : Int) : PStr :=
  if t < 0 then '-' :: natDigits t.natAbs else natDigits t.natAbs

/-- Model of Python `repr` of a numpy timestamp value. -/
def reprTime (t : Int) : PStr :=
  "numpy.datetime64(".data ++ intDigits t ++ ")".data

/-- Model of Python `repr` of a list of indices. -/
def reprNatList (l : List Nat) : PStr :=
  "[".data ++ (List.intercalate ", ".data (l.map natDigits)) ++ "]".data

/-- Model of Python `repr` of a bool. -/
def reprBool (b : Bool) : PStr :=
  if b then "True".data else "False".data

/-- Model of Python `repr` of a string (path). -/
def reprPath (p : PStr) : PStr :=
  '\'' :: (p ++ ['\''])

/-- `_el[j]` for the five-element record `[path, start, stop, olap, keep]`
that `_filter_out_duplicate_timestamp_files` interpolates into its warning;
`none` models the `IndexError` raised when `j ≥ 5`. -/
def recField (e : LocEntry) (keep : Bool) : Nat → Option PStr
  | 0 => some (reprPath e.path)
  | 1 => some (reprTime e.tstart)
  | 2 => some (reprTime e.tstop)
  | 3 => some (reprNatList e.olap)
  | 4 => some (reprBool keep)
  | _ => none

/-- The log entry produced by `logwarning` for the filter's message
`f"{_el[j]!r} will not be processed!"`. -/
def warnMsg (s : PStr) : PStr :=
  "[WARNING] [BookKeeper] [WARNINGTYPES.IGNORING_FILE] ".data ++ s ++
    " will not be processed!".data

/-- Inner loop of `_filter_out_duplicate_timestamp_files`:
`for j in _el[3]: locfiles[_l][j][4] = False; self.logwarning(...)`.
`st` is the current list of (record, keep-flag) pairs, `i` the index of the
current record `_el`; `none` models an `IndexError` escaping the loop. -/
def filterInner (i : Nat) : List Nat → List (LocEntry × Bool) × List PStr →
    Option (List (LocEntry × Bool) × List PStr)
  | [], s => some s
  | j :: js, (st, logs) =>
      if j < st.length then
        let st' := st.set j ((st.getD j default).1, false)
        let el := st'.getD i default
        match recField el.1 el.2 j with
        | some s => filterInner i js (st', logs ++ [warnMsg s])
        | none => none
      else none

/-- Outer loop of `_filter_out_duplicate_timestamp_files` over the file
indices of one channel; a record whose keep flag is already `false` is
skipped. -/
def filterOuter : List Nat → List (LocEntry × Bool) × List PStr →
    Option (List (LocEntry × Bool) × List PStr)
  | [], s => some s
  | i :: is, (st, logs) =>
      let el := st.getD i default
      if el.2 = false then filterOuter is (st, logs)
      else
        match filterInner i el.1.olap (st, logs) with
        | some s => filterOuter is s
        | none => none

/-- `_filter_out_duplicate_timestamp_files` for one channel: tentatively
keep every file, then walk the list in discovery order marking the overlap
partners of still-kept files as discarded; returns the flagged records and
the warning log, or `none` when the warning formatting raises `IndexError`. -/
def filter_out_duplicate_timestamp_files (files : List LocEntry) :
    Option (List (LocEntry × Bool) × List PStr) :=
  filterOuter (List.range files.length) (files.map (fun f => (f, true)), [])

/-- Reference keep/discard assignment: index `k` is kept iff no still-kept
earlier index lists `k` among its overlaps (used only inside proofs). -/
def keepSpec (olaps : Nat → List Nat) (k : Nat) : Bool :=
  ((List.range k).attach.all fun i =>
    !(keepSpec olaps i.1 && (olaps i.1).contains k))
termination_by k
decreasing_by exact List.mem_range.mp i.2

/-- Scenario A of the spec: three files with ranges `[10:00,11:00]`,
`[10:30,10:45]`, `[12:00,13:00]` (seconds of day). -/
def scenarioASegs : List TimeSeg :=
  [⟨36000, 39600⟩, ⟨37800, 38700⟩, ⟨43200, 46800⟩]

/-- Scenario A as locfile records, with the overlap lists computed by the
overlap detector on `scenarioASegs`. -/
def scenarioAFiles : List LocEntry :=
  [⟨"f0.csv".data, 36000, 39600, [1]⟩,
   ⟨"f1.csv".data, 37800, 38700, []⟩,
   ⟨"f2.csv".data, 43200, 46800, []⟩]

/-- Six files with identical time ranges: the overlap list of file 0 reaches
index 5, which makes the warning formatting of the duplicate filter raise
`IndexError`. -/
def cex6Segs : List TimeSeg :=
  [⟨0, 10⟩, ⟨0, 10⟩, ⟨0, 10⟩, ⟨0, 10⟩, ⟨0, 10⟩, ⟨0, 10⟩]

/-- The six-file channel as locfile records, overlap lists as computed by
the overlap detector on `cex6Segs`. -/
def cex6Files : List LocEntry :=
  [⟨"g0.csv".data, 0, 10, [1, 2, 3, 4, 5]⟩,
   ⟨"g1.csv".data, 0, 10, [2, 3, 4, 5]⟩,
   ⟨"g2.csv".data, 0, 10, [3, 4, 5]⟩,
   ⟨"g3.csv".data, 0, 10, [4, 5]⟩,
   ⟨"g4.csv".data, 0, 10, [5]⟩,
   ⟨"g5.csv".data, 0, 10, []⟩]

/-- Two overlapping files: file 1 is discarded and the emitted warning
interpolates `_el[1]` — the kept file's start time — instead of the
discarded file's path. -/
def cex9Files : List LocEntry :=
  [⟨"a.csv".data, 0, 10, [1]⟩,
   ⟨"b.csv".data, 5, 15, []⟩]

/-- Day number of an instant — `to_datetime(t).date()`: floor division of the
epoch-seconds value by 86400 (`Int.ediv` floors for a positive divisor). -/
def dayOf (t : Int) : Int := Int.ediv t 86400

/-- Civil date `(year, month, day)` of a day number counted from 1970-01-01,
modelling what `strftime` renders. -/
def civilFromDays (z : Int) : Int × Nat × Nat :=
  let era := Int.ediv (z + 719468) 146097
  let doe := (z + 719468 - era * 146097).toNat
  let yoe := (doe - doe / 1460 + doe / 36524 - doe / 146096) / 365
  let doy := doe - (365 * yoe + yoe / 4 - yoe / 100)
  let mp := (5 * doy + 2) / 153
  let d := doy - (153 * mp + 2) / 5 + 1
  let m := if mp < 10 then mp + 3 else mp - 9
  let y := era * 400 + yoe + (if m ≤ 2 then 1 else 0)
  (y, m, d)

/-- Two-digit zero-padded decimal rendering (as in `%y`, `%m`, `%d`). -/
def pad2 (n : Nat) : PStr :=
  if n < 10 then '0' :: natDigits n else natDigits n

/-- `strftime('%y-%m-%d')` of a day number. -/
def dateStr (z : Int) : PStr :=
  pad2 ((civilFromDays z).1.emod 100).toNat ++
    '-' :: pad2 (civilFromDays z).2.1 ++ '-' :: pad2 (civilFromDays z).2.2

/-- `f"{x:0.2f}"` for a value stored in hundredths (the decimal formatting
of the sample-rate and averaging-window parameters, kept exact). -/
def fmt2 (n : Nat) : PStr :=
  natDigits (n / 100) ++ '.' :: pad2 (n % 100)

/-- `f"{n:04d}"` for the summary-window sizes. -/
def fmt4 (n : Nat) : PStr :=
  List.replicate (4 - (natDigits n).length) '0' ++ natDigits n

/-- The analysis parameters (`analysisparams`); the `%0.2f`-formatted values
are stored in hundredths so that their decimal rendering is exact. -/
structure AnalysisParams where
  ulfuncinstsamprate : Nat
  avgwindur : Nat
  avgwinshift : Nat
  summarywin : List Nat
  deriving Repr, DecidableEq

/-- `_srstr = f"sr{self.analysisparams.ulfuncinstsamprate:0.2f}"`. -/
def srstr (ap : AnalysisParams) : PStr :=
  "sr".data ++ fmt2 ap.ulfuncinstsamprate

/-- `_avgstr = f"avg{...avgwindur:0.2f}-{...avgwinshift:0.2f}"`. -/
def avgstr (ap : AnalysisParams) : PStr :=
  "avg".data ++ fmt2 ap.avgwindur ++ '-' :: fmt2 ap.avgwinshift

/-- `_summstr = [f"summ{_sd:04d}" for _sd in ...summarywin]`. -/
def summstrs (ap : AnalysisParams) : List PStr :=
  ap.summarywin.map (fun sd => "summ".data ++ fmt4 sd)

/-- One day's entry of the expected-files dictionary: the per-channel source
files and the raw / instantaneous / average artifact paths. -/
structure DayEntry where
  src : List (PStr × List PStr)
  raw : PStr
  ulfuncinst : PStr
  ulfuncavrg : PStr
  deriving Repr, DecidableEq

instance : Inhabited DayEntry := ⟨⟨[], [], [], []⟩⟩

/-- The expected-files dictionary: per-day entries plus the `"summary"` key
holding one file list per summary kind (`hq`, `rq`, `li`). -/
structure ExpectedFiles where
  days : List (Int × DayEntry)
  summary : List (PStr × List PStr)
  deriving Repr, DecidableEq

instance : Inhabited ExpectedFiles := ⟨⟨[], []⟩⟩

/-- `_basedir = f"{self.datadir}/{dcfg.OUTPUT_DIR}/{subj}/"` with
`OUTPUT_DIR = "_output"`. -/
def basedir (datadir subj : PStr) : PStr :=
  datadir ++ "/_output/".data ++ subj ++ "/".data

/-- `"_".join((f"{_basedir}/raw/{subj}", date, f"raw.{extn}"))` with
`PROC_FILE_EXTN = "aipc"`. -/
def rawPath (datadir subj : PStr) (d : Int) : PStr :=
  basedir datadir subj ++ "/raw/".data ++ subj ++ '_' :: dateStr d ++
    "_raw.aipc".data

/-- `"_".join((f"{_basedir}/ulfuncinst/{subj}", date, _srstr, f"ulfuncinst.{extn}"))`. -/
def instPath (datadir subj : PStr) (ap : AnalysisParams) (d : Int) : PStr :=
  basedir datadir subj ++ "/ulfuncinst/".data ++ subj ++ '_' :: dateStr d ++
    '_' :: srstr ap ++ "_ulfuncinst.aipc".data

/-- `"_".join((f"{_basedir}/ulfuncavrg/{subj}", date, _srstr, _avgstr, f"ulfuncavrg.{extn}"))`. -/
def avrgPath (datadir subj : PStr) (ap : AnalysisParams) (d : Int) : PStr :=
  basedir datadir subj ++ "/ulfuncavrg/".data ++ subj ++ '_' :: dateStr d ++
    '_' :: srstr ap ++ '_' :: avgstr ap ++ "_ulfuncavrg.aipc".data

/-- Summary files for one key:
`"_".join((f"{_basedir}/summary/{subj}", _srstr, _avgstr, _ss, f"summary_{key}.{extn}"))`
for each summary-window fragment `_ss`. -/
def summPathsFor (datadir subj : PStr) (ap : AnalysisParams) (key : PStr) :
    List PStr :=
  (summstrs ap).map (fun ss =>
    basedir datadir subj ++ "/summary/".data ++ subj ++ '_' :: srstr ap ++
      '_' :: avgstr ap ++ '_' :: ss ++ "_summary_".data ++ key ++ ".aipc".data)

/-- A day's source files for one channel: files still flagged kept whose
start/stop dates enclose the day (`to_datetime(...).date()` comparison). -/
def daySources (d : Int) (lv : List (LocEntry × Bool)) : List PStr :=
  lv.filterMap (fun f =>
    if f.2 = false then none
    else if dayOf f.1.tstart ≤ d ∧ d ≤ dayOf f.1.tstop then some f.1.path
    else none)

/-- One day's entry of the expected-files dictionary. -/
def mkDayEntry (datadir subj : PStr) (ap : AnalysisParams)
    (locfiles : List (PStr × List (LocEntry × Bool))) (d : Int) : DayEntry :=
  { src := locfiles.map (fun lc => (lc.1, daySources d lc.2))
    raw := rawPath datadir subj d
    ulfuncinst := instPath datadir subj ap d
    ulfuncavrg := avrgPath datadir subj ap d }

/-- `_tlims`: the kept files' `(start, stop)` pairs across all channels, in
channel then discovery order. -/
def keptLims (locfiles : List (PStr × List (LocEntry × Bool))) :
    List (Int × Int) :=
  locfiles.flatMap (fun lc => lc.2.filterMap (fun f =>
    if f.2 = true then some (f.1.tstart, f.1.tstop) else none))

/-- `np.min` over a nonempty list given as head and tail. -/
def listMin (x : Int) (xs : List Int) : Int := xs.foldl min x

/-- `np.max` over a nonempty list given as head and tail. -/
def listMax (x : Int) (xs : List Int) : Int := xs.foldl max x

/-- `_alldates`: the day numbers from the midnight of the earliest kept start
through the midnight of the latest kept stop, inclusive (`np.arange` over
days); `t :: ts` are the kept `(start, stop)` limits. -/
def plannerDays (t : Int × Int) (ts : List (Int × Int)) : List Int :=
  (List.range ((dayOf (listMax t.2 (ts.map Prod.snd)) -
      dayOf (listMin t.1 (ts.map Prod.fst)) + 1).toNat)).map
    (fun k : Nat => dayOf (listMin t.1 (ts.map Prod.fst)) + (k : Int))

/-- The dictionary built by `_get_expected_files_on_disk` once the kept
limits are known to be nonempty. -/
def plannerResult (datadir subj : PStr) (ap : AnalysisParams)
    (locfiles : List (PStr × List (LocEntry × Bool)))
    (t : Int × Int) (ts : List (Int × Int)) : ExpectedFiles :=
  { days := (plannerDays t ts).map
      (fun d => (d, mkDayEntry datadir subj ap locfiles d))
    summary := [("hq".data, summPathsFor datadir subj ap "hq".data),
                ("rq".data, summPathsFor datadir subj ap "rq".data),
                ("li".data, summPathsFor datadir subj ap "li".data)] }

/-- `_get_expected_files_on_disk`: enumerate the calendar days from the
earliest kept start (truncated to midnight) through the latest kept stop
(truncated to midnight), attach each day's source files and expected raw /
instantaneous / average artifact paths, and add the summary files; `none`
models the exception numpy raises on the empty `_tlims` array when no file
is kept. -/
def _get_expected_files_on_disk (datadir subj : PStr) (ap : AnalysisParams)
    (locfiles : List (PStr × List (LocEntry × Bool))) : Option ExpectedFiles :=
  match keptLims locfiles with
  | [] => none
  | t :: ts => some (plannerResult datadir subj ap locfiles t ts)

/-- All expected raw-artifact paths of a planner result. -/
def rawPathsOf (ef : ExpectedFiles) : List PStr :=
  ef.days.map (fun de => de.2.raw)

/-- All expected instantaneous-artifact paths of a planner result. -/
def instPathsOf (ef : ExpectedFiles) : List PStr :=
  ef.days.map (fun de => de.2.ulfuncinst)

/-- All expected average-artifact paths of a planner result. -/
def avrgPathsOf (ef : ExpectedFiles) : List PStr :=
  ef.days.map (fun de => de.2.ulfuncavrg)

/-- All expected summary-artifact paths of a planner result. -/
def summPathsOf (ef : ExpectedFiles) : List PStr :=
  ef.summary.flatMap Prod.snd

/-- A one-channel, one-file planner input used for concrete instantiations. -/
def cexLocfiles : List (PStr × List (LocEntry × Bool)) :=
  [("ch".data, [(⟨"f.csv".data, 0, 10, []⟩, true)])]

/-- Analysis parameters `sr 10.00, avg 5.00-1.00, summary [7]`. -/
def cexP1 : AnalysisParams := ⟨1000, 500, 100, [7]⟩

/-- As `cexP1` but with averaging-window duration 6.00. -/
def cexP2 : AnalysisParams := ⟨1000, 600, 100, [7]⟩

/-- As `cexP1` but with sample rate 20.00 and summary window 14. -/
def cexP3 : AnalysisParams := ⟨2000, 600, 200, [14]⟩

/-- The planner result for `cexP1` on `cexLocfiles`. -/
def cexEF1 : ExpectedFiles :=
  (_get_expected_files_on_disk "d".data "s".data cexP1 cexLocfiles).getD default

/-- The planner result for `cexP3` on `cexLocfiles`. -/
def cexEF3 : ExpectedFiles :=
  (_get_expected_files_on_disk "d".data "s".data cexP3 cexLocfiles).getD default

/-- Scenario B: one kept file spanning 2024-01-01 08:00 through
2024-01-02 02:00 (epoch seconds; day numbers 19723 and 19724). -/
def scenBLocfiles : List (PStr × List (LocEntry × Bool)) :=
  [("ch".data, [(⟨"b1.csv".data, 1704096000, 1704160800, []⟩, true)])]

/-- The planner result for scenario B. -/
def scenBEF : ExpectedFiles :=
  (_get_expected_files_on_disk "d".data "s".data cexP1 scenBLocfiles).getD default

/-- A processed day's entry in `_get_files_to_be_processed`: each artifact
path paired with its `not os.path.exists` flag; source associations copied
through. -/
structure ProcDay where
  src : List (PStr × List PStr)
  raw : PStr × Bool
  ulfuncinst : PStr × Bool
  ulfuncavrg : PStr × Bool
  deriving Repr, DecidableEq

/-- The work list returned by `_get_files_to_be_processed`. -/
structure ProcFiles where
  days : List (Int × ProcDay)
  summary : List (PStr × List (PStr × Bool))
  deriving Repr, DecidableEq

/-- `_get_files_to_be_processed`: for every expected artifact, pair its path
with `not os.path.exists(path)` (the filesystem is the oracle `fs`); the
per-day source dictionaries are copied unchanged. -/
def _get_files_to_be_processed (fs : PStr → Bool) (exptd : ExpectedFiles) :
    ProcFiles :=
  { days := exptd.days.map (fun de =>
      (de.1,
       { src := de.2.src
         raw := (de.2.raw, !fs de.2.raw)
         ulfuncinst := (de.2.ulfuncinst, !fs de.2.ulfuncinst)
         ulfuncavrg := (de.2.ulfuncavrg, !fs de.2.ulfuncavrg) }))
    summary := exptd.summary.map (fun ks =>
      (ks.1, ks.2.map (fun dfn => (dfn, !fs dfn)))) }

/-- The three per-day artifact paths of an expected day entry. -/
def dayArtifacts (de : DayEntry) : List PStr :=
  [de.raw, de.ulfuncinst, de.ulfuncavrg]

/-- The three per-day artifacts of a processed day entry. -/
def procDayArtifacts (pd : ProcDay) : List (PStr × Bool) :=
  [pd.raw, pd.ulfuncinst, pd.ulfuncavrg]

/-- Every artifact path of an expected-files tree. -/
def expectedArtifacts (ef : ExpectedFiles) : List PStr :=
  ef.days.flatMap (fun p => dayArtifacts p.2) ++
    ef.summary.flatMap (fun ks => ks.2)

/-- Every (path, needsBuild) pair of a work list. -/
def procArtifacts (pf : ProcFiles) : List (PStr × Bool) :=
  pf.days.flatMap (fun p => procDayArtifacts p.2) ++
    pf.summary.flatMap (fun ks => ks.2)

/-- The persisted file-time cache: file path to (first, last) timestamps. -/
abbrev FileTimeCache := List (PStr × (Int × Int))

/-- One file's processing in `_get_loc_file_details`: on a cache miss the
external reader is invoked and the result appended to the cache (and the
path recorded as an invocation); the locfile record is then built from the
cache entry. -/
def procOneFile (reader : PStr → Int × Int) (st : FileTimeCache × List PStr)
    (p : PStr) : (FileTimeCache × List PStr) × (PStr × (Int × Int)) :=
  match st.1.lookup p with
  | some v => (st, (p, v))
  | none => ((st.1 ++ [(p, reader p)], st.2 ++ [p]), (p, reader p))

/-- The glob loop of `_get_loc_file_details` for one channel's files. -/
def procFiles (reader : PStr → Int × Int) :
    List PStr → FileTimeCache × List PStr →
      (FileTimeCache × List PStr) × List (PStr × (Int × Int))
  | [], st => (st, [])
  | p :: ps, st =>
      ((procFiles reader ps (procOneFile reader st p).1).1,
       (procOneFile reader st p).2 ::
         (procFiles reader ps (procOneFile reader st p).1).2)

/-- The channel loop of `_get_loc_file_details`. -/
def locDetailsAux (reader : PStr → Int × Int) :
    List (PStr × List PStr) → FileTimeCache × List PStr →
      List (PStr × List (PStr × (Int × Int))) × FileTimeCache × List PStr
  | [], st => ([], st.1, st.2)
  | ch :: rest, st =>
      ((ch.1, (procFiles reader ch.2 st).2) ::
          (locDetailsAux reader rest (procFiles reader ch.2 st).1).1,
        (locDetailsAux reader rest (procFiles reader ch.2 st).1).2)

/-- `_get_loc_file_details`: for every discovered file of every channel,
resolve its first/last timestamps through the file-time cache, invoking the
external reader only on cache misses and memoizing the result; returns the
per-channel records, the updated cache and the list of reader invocations. -/
def _get_loc_file_details (reader : PStr → Int × Int)
    (chfiles : List (PStr × List PStr)) (cache : FileTimeCache) :
    List (PStr × List (PStr × (Int × Int))) × FileTimeCache × List PStr :=
  locDetailsAux reader chfiles (cache, [])

/-- A concrete reader and discovery layout for instantiating the inventory
theorems: channel `w` has files `x.csv`, `y.csv`; channel `v` sees `x.csv`
again. -/
def cexChfiles : List (PStr × List PStr) :=
  [("w".data, ["x.csv".data, "y.csv".data]),
   ("v".data, ["x.csv".data])]

/-- A concrete reader for the inventory witness. -/
def cexReader (p : PStr) : Int × Int :=
  (p.length, p.length + 10)

/-- A concrete starting cache holding only `y.csv`. -/
def cexCache : FileTimeCache :=
  [("y.csv".data, (3, 4))]

/-- One session's payload in the journal:
`{'bkdetails': ..., 'analysisparams': ...}`. -/
structure SessionVal where
  bkdetails : List (PStr × PStr)
  analysisparams : AnalysisParams
  deriving Repr, DecidableEq

/-- The journal file contents: the file-time cache and the per-session
history keyed by session timestamp. -/
structure Journal where
  filetimes : FileTimeCache
  summary : List (PStr × SessionVal)
  deriving Repr, DecidableEq

/-- Python dict assignment on an association list: replace the first binding
of the key in place, else append at the end. -/
def dictInsert (k : PStr) (v : SessionVal) :
    List (PStr × SessionVal) → List (PStr × SessionVal)
  | [] => [(k, v)]
  | (k', v') :: rest =>
      if k' = k then (k, v) :: rest else (k', v') :: dictInsert k v rest

/-- `_update_bookkeping_file`: read the journal back, overwrite `filetimes`
with the in-memory cache, store the current session's work plan and analysis
parameters under the session-timestamp key, and write the whole file back. -/
def _update_bookkeping_file (filedata : Journal) (memFiletimes : FileTimeCache)
    (currsess : PStr) (newbkdata : List (PStr × PStr)) (ap : AnalysisParams) :
    Journal :=
  { filetimes := memFiletimes
    summary := dictInsert currsess ⟨newbkdata, ap⟩ filedata.summary }

theorem overlapCond_iff (a b : TimeSeg) :
    overlapCond a b = true ↔
      ((a.start ≤ b.start ∧ b.start ≤ a.stop) ∨
       (a.start ≤ b.stop ∧ b.stop ≤ a.stop)) := by
  simp [overlapCond]

theorem length_olapAux (l : List TimeSeg) (i : Nat) :
    (olapAux l i).length = l.length := by
  induction l generalizing i with
  | nil => rfl
  | cons a l ih => simp [olapAux, ih]

theorem le_of_mem_olapRow (ti : TimeSeg) (rest : List TimeSeg) (k j : Nat)
    (h : j ∈ olapRow ti rest k) : k ≤ j := by
  induction rest generalizing k with
  | nil => simp [olapRow] at h
  | cons tj rest ih =>
      rw [olapRow] at h
      rcases List.mem_append.mp h with h | h
      · by_cases hc : overlapCond ti tj = true
        · rw [if_pos hc] at h
          rw [List.mem_singleton.mp h]
        · rw [if_neg hc] at h
          simp at h
      · have := ih (k + 1) h
        omega

theorem mem_olapRow (ti : TimeSeg) (rest : List TimeSeg) (k j : Nat) :
    j ∈ olapRow ti rest k ↔
      ∃ m, m < rest.length ∧ j = k + m ∧
        overlapCond ti (rest.getD m default) = true := by
  induction rest generalizing k with
  | nil => simp [olapRow]
  | cons tj rest ih =>
      simp only [olapRow, List.mem_append, ih]
      constructor
      · rintro (h | ⟨m, hm, rfl, hc⟩)
        · rcases Bool.eq_false_or_eq_true (overlapCond ti tj) with hc | hc <;>
            simp [hc] at h
          exact ⟨0, by simp, by omega, by simp [hc]⟩
        · exact ⟨m + 1, by simpa using hm, by omega, by simpa using hc⟩
      · rintro ⟨m, hm, rfl, hc⟩
        match m with
        | 0 => simp at hc; simp [hc]
        | m + 1 =>
            right
            exact ⟨m, by simpa using hm, by omega, by simpa using hc⟩

theorem pairwise_olapRow (ti : TimeSeg) (rest : List TimeSeg) (k : Nat) :
    List.Pairwise (· < ·) (olapRow ti rest k) := by
  induction rest generalizing k with
  | nil => simp [olapRow]
  | cons tj rest ih =>
      rw [olapRow]
      by_cases hc : overlapCond ti tj = true
      · rw [if_pos hc, List.singleton_append]
        exact List.Pairwise.cons
          (fun j hj => by have := le_of_mem_olapRow ti rest (k + 1) j hj; omega)
          (ih (k + 1))
      · rw [if_neg hc, List.nil_append]
        exact ih (k + 1)

theorem getD_olapAux (l : List TimeSeg) (i0 i : Nat) (h : i < l.length) :
    (olapAux l i0).getD i [] =
      olapRow (l.getD i default) (l.drop (i + 1)) (i0 + i + 1) := by
  induction l generalizing i0 i with
  | nil => simp at h
  | cons a l ih =>
      match i with
      | 0 => simp [olapAux]
      | i + 1 =>
          have h' : i < l.length := by simpa using h
          simp only [olapAux, List.getD_cons_succ, List.drop_succ_cons]
          rw [ih (i0 + 1) i h']
          congr 1
          omega

theorem mem_find_overlap (tsegs : List TimeSeg) (i j : Nat)
    (hi : i < tsegs.length) :
    j ∈ (find_overlaping_timesegments tsegs).getD i [] ↔
      (i < j ∧ j < tsegs.length ∧
        overlapCond (tsegs.getD i default) (tsegs.getD j default) = true) := by
  rw [find_overlaping_timesegments, getD_olapAux tsegs 0 i hi,
    mem_olapRow]
  constructor
  · rintro ⟨m, hm, rfl, hc⟩
    have hlen : (tsegs.drop (i + 1)).length = tsegs.length - (i + 1) :=
      List.length_drop _ _
    have hmd : (tsegs.drop (i + 1)).getD m default =
        tsegs.getD (i + 1 + m) default := by
      rw [List.getD_eq_getElem?_getD, List.getD_eq_getElem?_getD,
        List.getElem?_drop]
    rw [hmd] at hc
    refine ⟨by omega, by omega, ?_⟩
    have he : 0 + i + 1 + m = i + 1 + m := by omega
    rw [he]
    exact hc
  · rintro ⟨hij, hj, hc⟩
    refine ⟨j - (i + 1), ?_, by omega, ?_⟩
    · rw [List.length_drop]; omega
    · have hmd : (tsegs.drop (i + 1)).getD (j - (i + 1)) default =
          tsegs.getD (i + 1 + (j - (i + 1))) default := by
        rw [List.getD_eq_getElem?_getD, List.getD_eq_getElem?_getD,
          List.getElem?_drop]
      rw [hmd]
      have he : i + 1 + (j - (i + 1)) = j := by omega
      rw [he]
      exact hc

theorem getD_set_self (l : List TimeSeg) (i : Nat) (a : TimeSeg)
    (h : i < l.length) : (l.set i a).getD i default = a := by
  rw [List.getD_eq_getElem _ _ (by simpa using h)]
  exact List.getElem_set_self _

theorem getD_set_ne (l : List TimeSeg) (i j : Nat) (a : TimeSeg)
    (hne : i ≠ j) (hj : j < l.length) :
    (l.set i a).getD j default = l.getD j default := by
  rw [List.getD_eq_getElem _ _ (by simpa using hj),
    List.getD_eq_getElem _ _ hj]
  exact List.getElem_set_of_ne hne a _

/-- C1: for every list of time segments in which each segment satisfies
`start ≤ end`, `find_overlaping_timesegments` returns a list of the same
length whose `i`-th element contains exactly those indices `j > i` for which
segment `j`'s start or end lies in the closed interval of segment `i`, in
increasing order of `j`; only forward matches are recorded. -/
theorem c1_find_overlaping_timesegments_spec (tsegs : List TimeSeg)
    (hv : ∀ s ∈ tsegs, s.start ≤ s.stop) :
    (find_overlaping_timesegments tsegs).length = tsegs.length ∧
    ∀ i, i < tsegs.length →
      (∀ j, j ∈ (find_overlaping_timesegments tsegs).getD i [] ↔
        (i < j ∧ j < tsegs.length ∧
          (((tsegs.getD i default).start ≤ (tsegs.getD j default).start ∧
            (tsegs.getD j default).start ≤ (tsegs.getD i default).stop) ∨
           ((tsegs.getD i default).start ≤ (tsegs.getD j default).stop ∧
            (tsegs.getD j default).stop ≤ (tsegs.getD i default).stop)))) ∧
      List.Pairwise (· < ·) ((find_overlaping_timesegments tsegs).getD i []) := by
  refine ⟨length_olapAux tsegs 0, fun i hi => ⟨fun j => ?_, ?_⟩⟩
  · rw [mem_find_overlap tsegs i j hi]
    rw [overlapCond_iff]
  · rw [find_overlaping_timesegments, getD_olapAux tsegs 0 i hi]
    exact pairwise_olapRow _ _ _

theorem c1_witness :
    (∀ s ∈ ([⟨0, 5⟩, ⟨3, 8⟩, ⟨20, 30⟩] : List TimeSeg), s.start ≤ s.stop) ∧
    (find_overlaping_timesegments [⟨0, 5⟩, ⟨3, 8⟩, ⟨20, 30⟩]).length = 3 :=
  ⟨by decide,
   (c1_find_overlaping_timesegments_spec [⟨0, 5⟩, ⟨3, 8⟩, ⟨20, 30⟩] (by decide)).1⟩

/-- C7 (amended): for valid time ranges, if the detector reports `i`
overlapping `j` (`i < j`) and range `i` does not strictly contain range `j`
(it is not the case that `start i < start j` and `stop j < stop i`), then
running the detector with entries `i` and `j` swapped in list order reports
the now-earlier range (formerly at `j`) as overlapping the now-later one
(formerly at `i`).  Without the no-strict-containment proviso the symmetry
fails, see the counterexample. -/
theorem c7_swap_overlap_symmetric (tsegs : List TimeSeg) (i j : Nat)
    (hv : ∀ s ∈ tsegs, s.start ≤ s.stop)
    (hj : j < tsegs.length)
    (hmem : j ∈ (find_overlaping_timesegments tsegs).getD i [])
    (hnc : ¬((tsegs.getD i default).start < (tsegs.getD j default).start ∧
             (tsegs.getD j default).stop < (tsegs.getD i default).stop)) :
    j ∈ (find_overlaping_timesegments
          ((tsegs.set i (tsegs.getD j default)).set j
            (tsegs.getD i default))).getD i [] := by
  have hi : i < tsegs.length := by
    by_contra hni
    rw [find_overlaping_timesegments] at hmem
    rw [List.getD_eq_default] at hmem
    · simp at hmem
    · rw [length_olapAux]; omega
  have hspec := (mem_find_overlap tsegs i j hi).mp hmem
  obtain ⟨hij, -, hcond⟩ := hspec
  have hne : i ≠ j := Nat.ne_of_lt hij
  set l' := (tsegs.set i (tsegs.getD j default)).set j (tsegs.getD i default) with hl'
  have hlen' : l'.length = tsegs.length := by
    rw [hl', List.length_set, List.length_set]
  have hgi : l'.getD i default = tsegs.getD j default := by
    rw [hl', getD_set_ne _ _ _ _ (Ne.symm hne) (by simpa using hi),
      getD_set_self _ _ _ hi]
  have hgj : l'.getD j default = tsegs.getD i default := by
    rw [hl', getD_set_self _ _ _ (by simpa using hj)]
  rw [mem_find_overlap l' i j (by omega)]
  refine ⟨hij, by omega, ?_⟩
  rw [hgi, hgj, overlapCond_iff]
  rw [overlapCond_iff] at hcond
  have hvi : (tsegs.getD i default).start ≤ (tsegs.getD i default).stop := by
    refine hv _ ?_
    rw [List.getD_eq_getElem _ _ hi]
    exact List.getElem_mem hi
  have hvj : (tsegs.getD j default).start ≤ (tsegs.getD j default).stop := by
    refine hv _ ?_
    rw [List.getD_eq_getElem _ _ hj]
    exact List.getElem_mem hj
  omega

theorem c7_counterexample :
    (∀ s ∈ ([⟨0, 10⟩, ⟨2, 3⟩] : List TimeSeg), s.start ≤ s.stop) ∧
    1 ∈ (find_overlaping_timesegments [⟨0, 10⟩, ⟨2, 3⟩]).getD 0 [] ∧
    1 ∉ (find_overlaping_timesegments [⟨2, 3⟩, ⟨0, 10⟩]).getD 0 [] := by
  decide

theorem c7_witness :
    1 ∈ (find_overlaping_timesegments
          ((([⟨0, 5⟩, ⟨3, 8⟩] : List TimeSeg).set 0
              (([⟨0, 5⟩, ⟨3, 8⟩] : List TimeSeg).getD 1 default)).set 1
            (([⟨0, 5⟩, ⟨3, 8⟩] : List TimeSeg).getD 0 default))).getD 0 [] :=
  c7_swap_overlap_symmetric [⟨0, 5⟩, ⟨3, 8⟩] 0 1 (by decide) (by decide)
    (by decide) (by decide)

theorem keepSpec_iff (olaps : Nat → List Nat) (k : Nat) :
    keepSpec olaps k = true ↔
      ∀ i, i < k → keepSpec olaps i = true → k ∉ olaps i := by
  rw [keepSpec]
  simp only [List.all_eq_true, List.mem_attach, true_implies, Subtype.forall,
    List.mem_range, Bool.not_eq_eq_eq_not, Bool.not_true, Bool.and_eq_false_imp]
  simp [List.contains_eq_any_beq]

theorem keepSpec_false_iff (olaps : Nat → List Nat) (k : Nat) :
    keepSpec olaps k = false ↔
      ∃ i, i < k ∧ keepSpec olaps i = true ∧ k ∈ olaps i := by
  rw [← Bool.not_eq_true, keepSpec_iff]
  push_neg
  constructor
  · rintro ⟨i, hi, hk, hm⟩
    exact ⟨i, hi, hk, hm⟩
  · rintro ⟨i, hi, hk, hm⟩
    exact ⟨i, hi, hk, hm⟩

theorem getD_fst_of_map (st : List (LocEntry × Bool)) (files : List LocEntry)
    (h : st.map Prod.fst = files) (k : Nat) :
    (st.getD k default).1 = files.getD k default := by
  subst h
  rcases Nat.lt_or_ge k st.length with hk | hk
  · rw [List.getD_eq_getElem _ _ hk,
      List.getD_eq_getElem _ _ (by simpa using hk), List.getElem_map]
  · rw [List.getD_eq_default _ _ hk,
      List.getD_eq_default _ _ (by simpa using hk)]
    rfl

theorem map_fst_set_flag (st : List (LocEntry × Bool)) (j : Nat) (b : Bool) :
    (st.set j ((st.getD j default).1, b)).map Prod.fst = st.map Prod.fst := by
  rcases Nat.lt_or_ge j st.length with hj | hj
  · apply List.ext_getElem
    · simp
    · intro k hk hk'
      rw [List.getElem_map, List.getElem_map]
      rcases eq_or_ne k j with rfl | hne
      · rw [List.getElem_set_self _]
        rw [List.getD_eq_getElem _ _ hj]
      · rw [List.getElem_set_of_ne (Ne.symm hne)]
  · rw [List.set_eq_of_length_le (by omega)]

theorem flag_set (st : List (LocEntry × Bool)) (j k : Nat) (b : Bool)
    (hk : k < st.length) :
    ((st.set j ((st.getD j default).1, b)).getD k default).2 =
      if k = j then b else (st.getD k default).2 := by
  rcases eq_or_ne k j with rfl | hne
  · rw [if_pos rfl, List.getD_eq_getElem _ _ (by simpa using hk),
      List.getElem_set_self _]
  · rw [if_neg hne, List.getD_eq_getElem _ _ (by simpa using hk),
      List.getD_eq_getElem _ _ hk, List.getElem_set_of_ne (Ne.symm hne)]

theorem recField_isSome (e : LocEntry) (b : Bool) (j : Nat)
    (h1 : 1 ≤ j) (h4 : j ≤ 4) : ∃ s, recField e b j = some s := by
  match j, h1, h4 with
  | 1, _, _ => exact ⟨_, rfl⟩
  | 2, _, _ => exact ⟨_, rfl⟩
  | 3, _, _ => exact ⟨_, rfl⟩
  | 4, _, _ => exact ⟨_, rfl⟩

theorem filterInner_spec (i : Nat) (js : List Nat) :
    ∀ (st : List (LocEntry × Bool)) (logs : List PStr),
      (∀ j ∈ js, 1 ≤ j ∧ j ≤ 4 ∧ j < st.length) →
      ∃ st' logs', filterInner i js (st, logs) = some (st', logs') ∧
        st'.length = st.length ∧
        st'.map Prod.fst = st.map Prod.fst ∧
        (∀ k, k < st.length →
          ((st'.getD k default).2 =
            ((st.getD k default).2 && !(decide (k ∈ js))))) := by
  induction js with
  | nil =>
      intro st logs _
      exact ⟨st, logs, rfl, rfl, rfl, fun k _ => by simp⟩
  | cons j js ih =>
      intro st logs hjs
      obtain ⟨hj1, hj4, hjlen⟩ := hjs j (List.mem_cons_self j js)
      have hlenset : (st.set j ((st.getD j default).1, false)).length =
          st.length := by simp
      obtain ⟨s, hs⟩ := recField_isSome
        (((st.set j ((st.getD j default).1, false)).getD i default).1)
        (((st.set j ((st.getD j default).1, false)).getD i default).2)
        j hj1 hj4
      obtain ⟨st', logs', heq, hlen, hmap, hflag⟩ :=
        ih (st.set j ((st.getD j default).1, false)) (logs ++ [warnMsg s])
          (fun j' hj' => by
            obtain ⟨a, b, c⟩ := hjs j' (List.mem_cons_of_mem j hj')
            exact ⟨a, b, by omega⟩)
      refine ⟨st', logs', ?_, by omega, ?_, ?_⟩
      · rw [filterInner, if_pos hjlen]
        simp only [hs]
        exact heq
      · rw [hmap, map_fst_set_flag]
      · intro k hk
        rw [hflag k (by omega), flag_set st j k false hk]
        rcases eq_or_ne k j with rfl | hne
        · simp
        · simp [hne]

theorem bool_eq_of_false_iff :
    ∀ (a b : Bool), ((a = false) ↔ (b = false)) → a = b := by decide

theorem filterOuter_spec (files : List LocEntry)
    (holap : ∀ i, i < files.length → ∀ j ∈ (files.getD i default).olap,
      i < j ∧ j < files.length)
    (hsmall : ∀ i, i < files.length → ∀ j ∈ (files.getD i default).olap, j ≤ 4) :
    ∀ (c m : Nat) (st : List (LocEntry × Bool)) (logs : List PStr),
      m + c = files.length →
      st.length = files.length →
      st.map Prod.fst = files →
      (∀ k, k < files.length →
        (((st.getD k default).2 = false) ↔
          ∃ i, i < m ∧ keepSpec (fun r => (files.getD r default).olap) i = true ∧
            k ∈ (files.getD i default).olap)) →
      ∃ st' logs',
        filterOuter (List.range' m c) (st, logs) = some (st', logs') ∧
        st'.length = files.length ∧
        st'.map Prod.fst = files ∧
        (∀ k, k < files.length →
          (((st'.getD k default).2 = false) ↔
            ∃ i, i < files.length ∧
              keepSpec (fun r => (files.getD r default).olap) i = true ∧
              k ∈ (files.getD i default).olap)) := by
  intro c
  induction c with
  | zero =>
      intro m st logs hm hlen hmap hinv
      refine ⟨st, logs, rfl, hlen, hmap, fun k hk => ?_⟩
      rw [hinv k hk]
      have hm' : m = files.length := by omega
      rw [hm']
  | succ c ih =>
      intro m st logs hm hlen hmap hinv
      have hmlt : m < files.length := by omega
      rw [List.range'_succ, filterOuter]
      by_cases hflag : (st.getD m default).2 = false
      · -- the current file is already discarded: it marks nothing
        rw [if_pos hflag]
        have hkm : keepSpec (fun r => (files.getD r default).olap) m = false := by
          rw [keepSpec_false_iff]
          exact (hinv m hmlt).mp hflag
        refine ih (m + 1) st logs (by omega) hlen hmap (fun k hk => ?_)
        rw [hinv k hk]
        constructor
        · rintro ⟨i, hi, hkeep, hmem⟩
          exact ⟨i, by omega, hkeep, hmem⟩
        · rintro ⟨i, hi, hkeep, hmem⟩
          rcases Nat.lt_or_ge i m with him | him
          · exact ⟨i, him, hkeep, hmem⟩
          · have : i = m := by omega
            subst this
            rw [hkm] at hkeep
            cases hkeep
      · -- the current file is still kept: it discards its overlap partners
        rw [if_neg hflag]
        have hflag' : (st.getD m default).2 = true := by
          simpa using hflag
        have hkm : keepSpec (fun r => (files.getD r default).olap) m = true := by
          rw [keepSpec_iff]
          intro i hi hkeep hmem
          have : (st.getD m default).2 = false :=
            (hinv m hmlt).mpr ⟨i, hi, hkeep, hmem⟩
          rw [this] at hflag'
          cases hflag'
        have holapm : (st.getD m default).1.olap = (files.getD m default).olap := by
          rw [getD_fst_of_map st files hmap]
        obtain ⟨st'', logs'', heq, hlen'', hmap'', hflag''⟩ :=
          filterInner_spec m ((st.getD m default).1.olap) st logs
            (fun j hj => by
              rw [holapm] at hj
              obtain ⟨h1, h2⟩ := holap m hmlt j hj
              exact ⟨by omega, hsmall m hmlt j hj, by omega⟩)
        rw [heq]
        refine ih (m + 1) st'' logs'' (by omega) (by omega)
          (by rw [hmap'', hmap]) (fun k hk => ?_)
        rw [hflag'' k (by omega), holapm]
        constructor
        · intro hand
          rcases Bool.eq_false_or_eq_true (st.getD k default).2 with h | h
          · rw [h] at hand
            simp only [Bool.true_and, Bool.not_eq_false'] at hand
            exact ⟨m, by omega, hkm, by simpa using hand⟩
          · obtain ⟨i, hi, hkeep, hmem⟩ := (hinv k hk).mp h
            exact ⟨i, by omega, hkeep, hmem⟩
        · rintro ⟨i, hi, hkeep, hmem⟩
          rcases Nat.lt_or_ge i m with him | him
          · have : (st.getD k default).2 = false := (hinv k hk).mpr ⟨i, him, hkeep, hmem⟩
            rw [this]
            rfl
          · have : i = m := by omega
            subst this
            have : decide (k ∈ (files.getD i default).olap) = true := by
              simpa using hmem
            rw [this]
            simp

set_option maxRecDepth 10000 in
/-- C4 (amended): provided every overlap index recorded on a file is at most
4 — in particular for channels of at most five files; otherwise the warning
interpolation `_el[j]` raises `IndexError` and the resolver returns no
output, see the counterexample — the duplicate resolver walks the list in
discovery order: a file still marked kept marks every later file in its
overlap list as discarded, a file already marked discarded marks nothing,
a file that takes part in no overlap is always kept, and the first file in
discovery order is always kept, with no inspection of size, content, or
modification time.  For the scenario-A input ranges `[10:00,11:00]`,
`[10:30,10:45]`, `[12:00,13:00]` the overlap pairs are exactly (0,1),
file 1 is discarded, and files 0 and 2 are kept. -/
theorem c4_filter_out_duplicates_spec (files : List LocEntry)
    (holap : ∀ i, i < files.length → ∀ j ∈ (files.getD i default).olap,
      i < j ∧ j < files.length)
    (hsmall : ∀ i, i < files.length → ∀ j ∈ (files.getD i default).olap, j ≤ 4) :
    (∃ st logs, filter_out_duplicate_timestamp_files files = some (st, logs) ∧
      st.map Prod.fst = files ∧
      (∀ k, k < files.length →
        (((st.getD k default).2 = false) ↔
          ∃ i, i < k ∧ (st.getD i default).2 = true ∧
            k ∈ (files.getD i default).olap)) ∧
      (∀ k, k < files.length →
        (∀ i, i < files.length → k ∉ (files.getD i default).olap) →
        (st.getD k default).2 = true) ∧
      (0 < files.length → (st.getD 0 default).2 = true)) ∧
    find_overlaping_timesegments scenarioASegs = [[1], [], []] ∧
    filter_out_duplicate_timestamp_files scenarioAFiles =
      some ([(scenarioAFiles.getD 0 default, true),
             (scenarioAFiles.getD 1 default, false),
             (scenarioAFiles.getD 2 default, true)],
            [warnMsg (reprTime 36000)]) := by
  refine ⟨?_, by decide, by decide⟩
  have hst0len : (files.map (fun f => (f, true))).length = files.length := by simp
  have hst0map : (files.map (fun f => (f, true))).map Prod.fst = files := by
    rw [List.map_map]
    exact List.map_id _
  have hst0inv : ∀ k, k < files.length →
      ((((files.map (fun f => (f, true))).getD k default).2 = false) ↔
        ∃ i, i < 0 ∧ keepSpec (fun r => (files.getD r default).olap) i = true ∧
          k ∈ (files.getD i default).olap) := by
    intro k hk
    rw [List.getD_eq_getElem _ _ (by simpa using hk), List.getElem_map]
    simp
  obtain ⟨st, logs, heq, hlen, hmap, hflag⟩ :=
    filterOuter_spec files holap hsmall files.length 0
      (files.map (fun f => (f, true))) [] (by omega) hst0len hst0map hst0inv
  have hrange : List.range files.length = List.range' 0 files.length :=
    List.range_eq_range' _
  have heq' : filter_out_duplicate_timestamp_files files = some (st, logs) := by
    rw [filter_out_duplicate_timestamp_files, hrange]
    exact heq
  -- final flags agree with the reference assignment
  have hpoint : ∀ k, k < files.length →
      (st.getD k default).2 = keepSpec (fun r => (files.getD r default).olap) k := by
    intro k hk
    refine bool_eq_of_false_iff _ _ ?_
    rw [hflag k hk, keepSpec_false_iff]
    constructor
    · rintro ⟨i, hi, hkeep, hmem⟩
      exact ⟨i, (holap i hi k hmem).1, hkeep, hmem⟩
    · rintro ⟨i, hi, hkeep, hmem⟩
      exact ⟨i, by omega, hkeep, hmem⟩
  refine ⟨st, logs, heq', hmap, fun k hk => ?_, fun k hk hnone => ?_, fun hpos => ?_⟩
  · rw [hpoint k hk, keepSpec_false_iff]
    constructor
    · rintro ⟨i, hi, hkeep, hmem⟩
      refine ⟨i, hi, ?_, hmem⟩
      rw [hpoint i (by omega)]
      exact hkeep
    · rintro ⟨i, hi, hkeep, hmem⟩
      refine ⟨i, hi, ?_, hmem⟩
      rw [hpoint i (by omega)] at hkeep
      exact hkeep
  · rcases Bool.eq_false_or_eq_true (st.getD k default).2 with h | h
    · exact h
    · rw [hpoint k hk, keepSpec_false_iff] at h
      obtain ⟨i, hi, -, hmem⟩ := h
      exact absurd hmem (hnone i (by omega))
  · rw [hpoint 0 hpos, keepSpec_iff]
    intro i hi
    omega

set_option maxRecDepth 10000 in
theorem c4_counterexample :
    (∀ s ∈ cex6Segs, s.start ≤ s.stop) ∧
    cex6Files.map (fun f => (⟨f.tstart, f.tstop⟩ : TimeSeg)) = cex6Segs ∧
    find_overlaping_timesegments cex6Segs = cex6Files.map LocEntry.olap ∧
    filter_out_duplicate_timestamp_files cex6Files = none := by decide

set_option maxRecDepth 10000 in
theorem c4_witness :
    ∃ st logs, filter_out_duplicate_timestamp_files scenarioAFiles =
        some (st, logs) ∧
      st.map Prod.fst = scenarioAFiles ∧
      (∀ k, k < scenarioAFiles.length →
        (((st.getD k default).2 = false) ↔
          ∃ i, i < k ∧ (st.getD i default).2 = true ∧
            k ∈ (scenarioAFiles.getD i default).olap)) ∧
      (∀ k, k < scenarioAFiles.length →
        (∀ i, i < scenarioAFiles.length →
          k ∉ (scenarioAFiles.getD i default).olap) →
        (st.getD k default).2 = true) ∧
      (0 < scenarioAFiles.length → (st.getD 0 default).2 = true) :=
  (c4_filter_out_duplicates_spec scenarioAFiles (by decide) (by decide)).1

set_option maxRecDepth 10000 in
/-- C9: the warning emitted when a file is discarded interpolates `_el[j]` —
element `j` of the kept file's own five-element record — rather than the
discarded file's path: for two overlapping files the log holds the kept
file's start time and does not contain the discarded file's path. -/
theorem c9_warning_wrong_field :
    filter_out_duplicate_timestamp_files cex9Files =
      some ([(cex9Files.getD 0 default, true),
             (cex9Files.getD 1 default, false)],
            [warnMsg (reprTime 0)]) ∧
    ¬ ("b.csv".data <:+: warnMsg (reprTime 0)) := by decide

theorem digitChar_ne_underscore (d : Nat) : digitChar d ≠ '_' := by
  rcases Nat.lt_or_ge d 10 with h | h
  · rw [digitChar]
    interval_cases d <;> decide
  · rw [digitChar, List.getD_eq_default _ _ (by simpa using h)]
    decide

theorem underscore_not_mem_natDigitsAux (fuel : Nat) :
    ∀ n, '_' ∉ natDigitsAux fuel n := by
  induction fuel with
  | zero => intro n h; simp [natDigitsAux] at h
  | succ fuel ih =>
      intro n h
      rw [natDigitsAux] at h
      by_cases hn : n < 10
      · rw [if_pos hn] at h
        exact digitChar_ne_underscore n (List.mem_singleton.mp h).symm
      · rw [if_neg hn] at h
        rcases List.mem_append.mp h with h | h
        · exact ih _ h
        · exact digitChar_ne_underscore _ (List.mem_singleton.mp h).symm

theorem underscore_not_mem_natDigits (n : Nat) : '_' ∉ natDigits n :=
  underscore_not_mem_natDigitsAux (n + 1) n

theorem underscore_not_mem_pad2 (n : Nat) : '_' ∉ pad2 n := by
  intro h
  rw [pad2] at h
  by_cases hn : n < 10
  · rw [if_pos hn] at h
    rcases List.mem_cons.mp h with h | h
    · cases h
    · exact underscore_not_mem_natDigits n h
  · rw [if_neg hn] at h
    exact underscore_not_mem_natDigits n h

theorem underscore_not_mem_fmt2 (n : Nat) : '_' ∉ fmt2 n := by
  intro h
  rw [fmt2] at h
  rcases List.mem_append.mp h with h | h
  · exact underscore_not_mem_natDigits _ h
  · rcases List.mem_cons.mp h with h | h
    · cases h
    · exact underscore_not_mem_pad2 _ h

theorem underscore_not_mem_dateStr (z : Int) : '_' ∉ dateStr z := by
  intro h
  rw [dateStr] at h
  rcases List.mem_append.mp h with h | h
  · rcases List.mem_append.mp h with h | h
    · exact underscore_not_mem_pad2 _ h
    · rcases List.mem_cons.mp h with h | h
      · cases h
      · exact underscore_not_mem_pad2 _ h
  · rcases List.mem_cons.mp h with h | h
    · cases h
    · exact underscore_not_mem_pad2 _ h

theorem underscore_not_mem_srstr (ap : AnalysisParams) : '_' ∉ srstr ap := by
  intro h
  rw [srstr] at h
  rcases List.mem_append.mp h with h | h
  · revert h; decide
  · exact underscore_not_mem_fmt2 _ h

theorem underscore_not_mem_avgstr (ap : AnalysisParams) : '_' ∉ avgstr ap := by
  intro h
  rw [avgstr] at h
  rcases List.mem_append.mp h with h | h
  · rcases List.mem_append.mp h with h | h
    · revert h; decide
    · exact underscore_not_mem_fmt2 _ h
  · rcases List.mem_cons.mp h with h | h
    · cases h
    · exact underscore_not_mem_fmt2 _ h

theorem append_underscore_inj :
    ∀ (x1 x2 y1 y2 : PStr), '_' ∉ x1 → '_' ∉ x2 →
      x1 ++ '_' :: y1 = x2 ++ '_' :: y2 → x1 = x2 ∧ y1 = y2 := by
  intro x1
  induction x1 with
  | nil =>
      intro x2 y1 y2 _ h2 h
      match x2 with
      | [] => exact ⟨rfl, (List.cons.inj h).2⟩
      | c :: t =>
          obtain ⟨hc, -⟩ := List.cons.inj h
          exact absurd (hc ▸ List.mem_cons_self c t) h2
  | cons c t ih =>
      intro x2 y1 y2 h1 h2 h
      match x2 with
      | [] =>
          obtain ⟨hc, -⟩ := List.cons.inj h
          exact absurd (hc ▸ List.mem_cons_self c t) h1
      | c' :: t' =>
          obtain ⟨hc, hrest⟩ := List.cons.inj h
          obtain ⟨he, hy⟩ := ih t' y1 y2
            (fun hm => h1 (List.mem_cons_of_mem c hm))
            (fun hm => h2 (List.mem_cons_of_mem c' hm)) hrest
          exact ⟨by rw [hc, he], hy⟩

theorem listMin_le (xs : List Int) : ∀ x, listMin x xs ≤ x := by
  induction xs with
  | nil => intro x; simp [listMin]
  | cons a l ih =>
      intro x
      have h := ih (min x a)
      have : listMin x (a :: l) = listMin (min x a) l := rfl
      rw [this]
      exact le_trans h (min_le_left x a)

theorem listMin_le_mem (xs : List Int) : ∀ x y, y ∈ xs → listMin x xs ≤ y := by
  induction xs with
  | nil => intro x y h; simp at h
  | cons a l ih =>
      intro x y hy
      have hrw : listMin x (a :: l) = listMin (min x a) l := rfl
      rw [hrw]
      rcases List.mem_cons.mp hy with rfl | hy
      · exact le_trans (listMin_le l (min x y)) (min_le_right x y)
      · exact ih (min x a) y hy

theorem listMin_mem (xs : List Int) :
    ∀ x, listMin x xs = x ∨ listMin x xs ∈ xs := by
  induction xs with
  | nil => intro x; left; rfl
  | cons a l ih =>
      intro x
      have hrw : listMin x (a :: l) = listMin (min x a) l := rfl
      rw [hrw]
      rcases ih (min x a) with h | h
      · rcases min_choice x a with hm | hm
        · left; rw [h, hm]
        · right; rw [h, hm]; exact List.mem_cons_self a l
      · right; exact List.mem_cons_of_mem a h

theorem le_listMax (xs : List Int) : ∀ x, x ≤ listMax x xs := by
  induction xs with
  | nil => intro x; simp [listMax]
  | cons a l ih =>
      intro x
      have h := ih (max x a)
      have hrw : listMax x (a :: l) = listMax (max x a) l := rfl
      rw [hrw]
      exact le_trans (le_max_left x a) h

theorem mem_le_listMax (xs : List Int) : ∀ x y, y ∈ xs → y ≤ listMax x xs := by
  induction xs with
  | nil => intro x y h; simp at h
  | cons a l ih =>
      intro x y hy
      have hrw : listMax x (a :: l) = listMax (max x a) l := rfl
      rw [hrw]
      rcases List.mem_cons.mp hy with rfl | hy
      · exact le_trans (le_max_right x y) (le_listMax l (max x y))
      · exact ih (max x a) y hy

theorem listMax_mem (xs : List Int) :
    ∀ x, listMax x xs = x ∨ listMax x xs ∈ xs := by
  induction xs with
  | nil => intro x; left; rfl
  | cons a l ih =>
      intro x
      have hrw : listMax x (a :: l) = listMax (max x a) l := rfl
      rw [hrw]
      rcases ih (max x a) with h | h
      · rcases max_choice x a with hm | hm
        · left; rw [h, hm]
        · right; rw [h, hm]; exact List.mem_cons_self a l
      · right; exact List.mem_cons_of_mem a h

/-- C10: if no channel yields any kept source file, the Expected-Artifact
Planner raises (returns no result) instead of returning an empty
expected-artifact map; at least one kept file is a precondition for
returning normally. -/
theorem c10_planner_requires_kept_file (datadir subj : PStr)
    (ap : AnalysisParams) (locfiles : List (PStr × List (LocEntry × Bool))) :
    _get_expected_files_on_disk datadir subj ap locfiles = none ↔
      ∀ ch ∈ locfiles, ∀ f ∈ ch.2, f.2 = false := by
  have hiff : keptLims locfiles = [] ↔
      ∀ ch ∈ locfiles, ∀ f ∈ ch.2, f.2 = false := by
    rw [keptLims, List.flatMap_eq_nil_iff]
    constructor
    · intro h ch hch f hf
      have hnil := h ch hch
      rw [List.filterMap_eq_nil_iff] at hnil
      have hn := hnil f hf
      by_cases hb : f.2 = true
      · rw [if_pos hb] at hn; cases hn
      · simpa using hb
    · intro h ch hch
      rw [List.filterMap_eq_nil_iff]
      intro f hf
      rw [if_neg (by simp [h ch hch f hf])]
  rw [← hiff]
  constructor
  · intro h
    by_contra hne
    obtain ⟨t, ts, hk⟩ := List.exists_cons_of_ne_nil hne
    simp [_get_expected_files_on_disk, hk] at h
  · intro hk
    simp [_get_expected_files_on_disk, hk]

theorem mem_intRange (s e d : Int) :
    (d ∈ (List.range (e - s + 1).toNat).map (fun k : Nat => s + (k : Int))) ↔
      (s ≤ d ∧ d ≤ e) := by
  rw [List.mem_map]
  constructor
  · rintro ⟨k, hk, rfl⟩
    rw [List.mem_range] at hk
    omega
  · rintro ⟨h1, h2⟩
    exact ⟨(d - s).toNat, by rw [List.mem_range]; omega, by omega⟩

theorem chain'_intRange (n : Nat) :
    ∀ s : Int, List.Chain' (fun a b => b = a + 1)
      ((List.range n).map (fun k : Nat => s + (k : Int))) := by
  induction n with
  | zero => intro s; simp
  | succ n ih =>
      intro s
      rw [List.range_succ_eq_map, List.map_cons, List.map_map]
      have hcomp : ((fun k : Nat => s + (k : Int)) ∘ Nat.succ) =
          (fun k : Nat => (s + 1) + (k : Int)) := by
        funext k
        simp only [Function.comp]
        push_cast
        ring
      rw [hcomp, List.chain'_cons']
      refine ⟨?_, ih (s + 1)⟩
      intro h hh
      match n, hh with
      | Nat.succ m, hh =>
          rw [List.range_succ_eq_map, List.map_cons, List.head?_cons,
            Option.mem_some_iff] at hh
          rw [← hh]
          push_cast
          ring

theorem mem_keptLims (locfiles : List (PStr × List (LocEntry × Bool)))
    (q : Int × Int) :
    q ∈ keptLims locfiles ↔
      ∃ ch ∈ locfiles, ∃ f ∈ ch.2, f.2 = true ∧
        q = (f.1.tstart, f.1.tstop) := by
  rw [keptLims, List.mem_flatMap]
  constructor
  · rintro ⟨lc, hlc, hq⟩
    rw [List.mem_filterMap] at hq
    obtain ⟨f, hf, hsome⟩ := hq
    by_cases hb : f.2 = true
    · rw [if_pos hb] at hsome
      exact ⟨lc, hlc, f, hf, hb, (Option.some.inj hsome).symm⟩
    · rw [if_neg hb] at hsome
      cases hsome
  · rintro ⟨lc, hlc, f, hf, hb, rfl⟩
    refine ⟨lc, hlc, ?_⟩
    rw [List.mem_filterMap]
    exact ⟨f, hf, by rw [if_pos hb]⟩

theorem mem_daySources (d : Int) (lv : List (LocEntry × Bool)) (pth : PStr) :
    pth ∈ daySources d lv ↔
      ∃ f ∈ lv, f.2 = true ∧ dayOf f.1.tstart ≤ d ∧ d ≤ dayOf f.1.tstop ∧
        pth = f.1.path := by
  rw [daySources, List.mem_filterMap]
  constructor
  · rintro ⟨f, hf, hsome⟩
    by_cases h1 : f.2 = false
    · rw [if_pos h1] at hsome
      cases hsome
    · rw [if_neg h1] at hsome
      by_cases h2 : dayOf f.1.tstart ≤ d ∧ d ≤ dayOf f.1.tstop
      · rw [if_pos h2] at hsome
        exact ⟨f, hf, by simpa using h1, h2.1, h2.2,
          (Option.some.inj hsome).symm⟩
      · rw [if_neg h2] at hsome
        cases hsome
  · rintro ⟨f, hf, hflag, hd1, hd2, rfl⟩
    refine ⟨f, hf, ?_⟩
    rw [if_neg (by simp [hflag]), if_pos ⟨hd1, hd2⟩]

theorem instPath_inj_sr (datadir subj : PStr) (ap1 ap2 : AnalysisParams)
    (d1 d2 : Int)
    (h : instPath datadir subj ap1 d1 = instPath datadir subj ap2 d2) :
    srstr ap1 = srstr ap2 := by
  simp only [instPath, basedir, List.append_assoc, List.cons_append,
    List.nil_append, List.cons.injEq, List.append_right_inj,
    eq_self_iff_true, true_and] at h
  obtain ⟨-, h8⟩ := append_underscore_inj _ _ _ _
    (underscore_not_mem_dateStr d1) (underscore_not_mem_dateStr d2) h
  exact List.append_cancel_right h8

theorem avrgPath_inj_sravg (datadir subj : PStr) (ap1 ap2 : AnalysisParams)
    (d1 d2 : Int)
    (h : avrgPath datadir subj ap1 d1 = avrgPath datadir subj ap2 d2) :
    srstr ap1 = srstr ap2 ∧ avgstr ap1 = avgstr ap2 := by
  simp only [avrgPath, basedir, List.append_assoc, List.cons_append,
    List.nil_append, List.cons.injEq, List.append_right_inj,
    eq_self_iff_true, true_and] at h
  obtain ⟨-, h8⟩ := append_underscore_inj _ _ _ _
    (underscore_not_mem_dateStr d1) (underscore_not_mem_dateStr d2) h
  obtain ⟨hsr, h9⟩ := append_underscore_inj _ _ _ _
    (underscore_not_mem_srstr ap1) (underscore_not_mem_srstr ap2) h8
  exact ⟨hsr, List.append_cancel_right h9⟩

theorem summPathBody_inj (datadir subj key1 key2 ss1 ss2 : PStr)
    (ap1 ap2 : AnalysisParams)
    (h : basedir datadir subj ++ "/summary/".data ++ subj ++ '_' :: srstr ap1 ++
        '_' :: avgstr ap1 ++ '_' :: ss1 ++ "_summary_".data ++ key1 ++
        ".aipc".data =
      basedir datadir subj ++ "/summary/".data ++ subj ++ '_' :: srstr ap2 ++
        '_' :: avgstr ap2 ++ '_' :: ss2 ++ "_summary_".data ++ key2 ++
        ".aipc".data) :
    srstr ap1 = srstr ap2 ∧ avgstr ap1 = avgstr ap2 := by
  simp only [basedir, List.append_assoc, List.cons_append,
    List.nil_append, List.cons.injEq, List.append_right_inj,
    eq_self_iff_true, true_and] at h
  obtain ⟨hsr, h8⟩ := append_underscore_inj _ _ _ _
    (underscore_not_mem_srstr ap1) (underscore_not_mem_srstr ap2) h
  obtain ⟨havg, -⟩ := append_underscore_inj _ _ _ _
    (underscore_not_mem_avgstr ap1) (underscore_not_mem_avgstr ap2) h8
  exact ⟨hsr, havg⟩

theorem map_fst_pair (l : List Int) (g : Int → DayEntry) :
    (l.map (fun d => (d, g d))).map Prod.fst = l := by
  induction l with
  | nil => rfl
  | cons a l ih => simp [ih]

theorem mem_summPathsFor (datadir subj : PStr) (ap : AnalysisParams)
    (key x : PStr) :
    x ∈ summPathsFor datadir subj ap key ↔
      ∃ ss ∈ summstrs ap,
        x = basedir datadir subj ++ "/summary/".data ++ subj ++
          '_' :: srstr ap ++ '_' :: avgstr ap ++ '_' :: ss ++
          "_summary_".data ++ key ++ ".aipc".data := by
  rw [summPathsFor, List.mem_map]
  constructor
  · rintro ⟨ss, hss, h⟩
    exact ⟨ss, hss, h.symm⟩
  · rintro ⟨ss, hss, h⟩
    exact ⟨ss, hss, h.symm⟩

/-- C5: whenever the planner returns normally (at least one source file is
kept), the returned day keys are exactly the calendar days from the earliest
kept start (truncated to midnight) through the latest kept end (truncated to
midnight), inclusive, stepping one day at a time; the kept `(start, stop)`
limits are exactly those of files still flagged kept; and each day's
per-channel sources are exactly the kept files whose start date ≤ day ≤ end
date (compared by date only) — discarded files never contribute. -/
theorem c5_planner_days_sources (datadir subj : PStr) (ap : AnalysisParams)
    (locfiles : List (PStr × List (LocEntry × Bool))) (ef : ExpectedFiles)
    (heq : _get_expected_files_on_disk datadir subj ap locfiles = some ef) :
    (∀ q : Int × Int, q ∈ keptLims locfiles ↔
      ∃ ch ∈ locfiles, ∃ f ∈ ch.2, f.2 = true ∧
        q = (f.1.tstart, f.1.tstop)) ∧
    (∀ d : Int, d ∈ ef.days.map Prod.fst ↔
      ((∃ q ∈ keptLims locfiles, dayOf q.1 ≤ d) ∧
       (∃ q ∈ keptLims locfiles, d ≤ dayOf q.2))) ∧
    List.Chain' (fun a b => b = a + 1) (ef.days.map Prod.fst) ∧
    (∀ p ∈ ef.days, p.2.src.length = locfiles.length ∧
      ∀ n, n < locfiles.length →
        ((p.2.src.getD n default).1 = (locfiles.getD n default).1 ∧
         ∀ pth, pth ∈ (p.2.src.getD n default).2 ↔
           ∃ f ∈ (locfiles.getD n default).2, f.2 = true ∧
             dayOf f.1.tstart ≤ p.1 ∧ p.1 ≤ dayOf f.1.tstop ∧
             pth = f.1.path)) := by
  have hne : keptLims locfiles ≠ [] := by
    intro h0
    simp [_get_expected_files_on_disk, h0] at heq
  obtain ⟨t, ts, hkk⟩ := List.exists_cons_of_ne_nil hne
  simp only [_get_expected_files_on_disk, hkk, Option.some.injEq] at heq
  subst heq
  have hdays : (plannerResult datadir subj ap locfiles t ts).days.map
      Prod.fst = plannerDays t ts := map_fst_pair _ _
  refine ⟨fun q => mem_keptLims locfiles q, fun d => ?_, ?_, ?_⟩
  · rw [hdays, plannerDays, mem_intRange, hkk]
    constructor
    · rintro ⟨h1, h2⟩
      constructor
      · rcases listMin_mem (ts.map Prod.fst) t.1 with hm | hm
        · rw [hm] at h1
          exact ⟨t, List.mem_cons_self t ts, h1⟩
        · obtain ⟨q, hq, hfst⟩ := List.mem_map.mp hm
          rw [← hfst] at h1
          exact ⟨q, List.mem_cons_of_mem t hq, h1⟩
      · rcases listMax_mem (ts.map Prod.snd) t.2 with hm | hm
        · rw [hm] at h2
          exact ⟨t, List.mem_cons_self t ts, h2⟩
        · obtain ⟨q, hq, hsnd⟩ := List.mem_map.mp hm
          rw [← hsnd] at h2
          exact ⟨q, List.mem_cons_of_mem t hq, h2⟩
    · rintro ⟨⟨q1, hq1, hd1⟩, ⟨q2, hq2, hd2⟩⟩
      constructor
      · have hmin : listMin t.1 (ts.map Prod.fst) ≤ q1.1 := by
          rcases List.mem_cons.mp hq1 with rfl | hq
          · exact listMin_le _ _
          · exact listMin_le_mem _ _ _ (List.mem_map_of_mem Prod.fst hq)
        have hm2 : Int.ediv (listMin t.1 (ts.map Prod.fst)) 86400 ≤
            Int.ediv q1.1 86400 := Int.ediv_le_ediv (by norm_num) hmin
        simp only [dayOf] at hd1 ⊢
        omega
      · have hmax : q2.2 ≤ listMax t.2 (ts.map Prod.snd) := by
          rcases List.mem_cons.mp hq2 with rfl | hq
          · exact le_listMax _ _
          · exact mem_le_listMax _ _ _ (List.mem_map_of_mem Prod.snd hq)
        have hm2 : Int.ediv q2.2 86400 ≤
            Int.ediv (listMax t.2 (ts.map Prod.snd)) 86400 :=
          Int.ediv_le_ediv (by norm_num) hmax
        simp only [dayOf] at hd2 ⊢
        omega
  · rw [hdays, plannerDays]
    exact chain'_intRange _ _
  · intro p hp
    rw [plannerResult] at hp
    obtain ⟨d, hd, rfl⟩ := List.mem_map.mp hp
    refine ⟨by simp [mkDayEntry], fun n hn => ?_⟩
    have hget : ((mkDayEntry datadir subj ap locfiles d).src.getD n default) =
        ((locfiles.getD n default).1,
          daySources d (locfiles.getD n default).2) := by
      rw [mkDayEntry]
      rw [List.getD_eq_getElem _ _ (by simpa using hn), List.getElem_map,
        List.getD_eq_getElem _ _ hn]
    rw [hget]
    exact ⟨rfl, fun pth => mem_daySources d _ pth⟩

set_option maxRecDepth 40000 in
theorem c5_witness :
    (∀ q : Int × Int, q ∈ keptLims scenBLocfiles ↔
      ∃ ch ∈ scenBLocfiles, ∃ f ∈ ch.2, f.2 = true ∧
        q = (f.1.tstart, f.1.tstop)) ∧
    (∀ d : Int, d ∈ scenBEF.days.map Prod.fst ↔
      ((∃ q ∈ keptLims scenBLocfiles, dayOf q.1 ≤ d) ∧
       (∃ q ∈ keptLims scenBLocfiles, d ≤ dayOf q.2))) ∧
    List.Chain' (fun a b => b = a + 1) (scenBEF.days.map Prod.fst) ∧
    (∀ p ∈ scenBEF.days, p.2.src.length = scenBLocfiles.length ∧
      ∀ n, n < scenBLocfiles.length →
        ((p.2.src.getD n default).1 = (scenBLocfiles.getD n default).1 ∧
         ∀ pth, pth ∈ (p.2.src.getD n default).2 ↔
           ∃ f ∈ (scenBLocfiles.getD n default).2, f.2 = true ∧
             dayOf f.1.tstart ≤ p.1 ∧ p.1 ≤ dayOf f.1.tstop ∧
             pth = f.1.path)) :=
  c5_planner_days_sources "d".data "s".data cexP1 scenBLocfiles scenBEF
    (by decide)

/-- C2 (amended): identical parameters yield identical planner output, hence
byte-identical artifact paths; full disjointness for different parameters
fails because the raw artifact paths carry no parameter fragment and always
coincide (see the counterexample); what holds is: if the formatted
sample-rate fragments differ, the instantaneous path sets are disjoint, and
if the sample-rate or averaging fragments differ, the average and summary
path sets are disjoint. -/
theorem c2_planner_paths_params (datadir subj : PStr)
    (ap1 ap2 : AnalysisParams)
    (locfiles : List (PStr × List (LocEntry × Bool))) (ef1 ef2 : ExpectedFiles)
    (h1 : _get_expected_files_on_disk datadir subj ap1 locfiles = some ef1)
    (h2 : _get_expected_files_on_disk datadir subj ap2 locfiles = some ef2) :
    (ap1 = ap2 → ef1 = ef2) ∧
    rawPathsOf ef1 = rawPathsOf ef2 ∧
    (srstr ap1 ≠ srstr ap2 → ∀ x ∈ instPathsOf ef1, x ∉ instPathsOf ef2) ∧
    ((srstr ap1 ≠ srstr ap2 ∨ avgstr ap1 ≠ avgstr ap2) →
      (∀ x ∈ avrgPathsOf ef1, x ∉ avrgPathsOf ef2) ∧
      (∀ x ∈ summPathsOf ef1, x ∉ summPathsOf ef2)) := by
  have hne : keptLims locfiles ≠ [] := by
    intro h0
    simp [_get_expected_files_on_disk, h0] at h1
  obtain ⟨t, ts, hkk⟩ := List.exists_cons_of_ne_nil hne
  simp only [_get_expected_files_on_disk, hkk, Option.some.injEq] at h1 h2
  subst h1
  subst h2
  refine ⟨?_, ?_, ?_, ?_⟩
  · rintro rfl
    rfl
  · simp [rawPathsOf, plannerResult, mkDayEntry, List.map_map, Function.comp]
  · intro hsr x hx1 hx2
    simp only [instPathsOf, plannerResult, mkDayEntry, List.map_map,
      Function.comp, List.mem_map] at hx1 hx2
    obtain ⟨d1, hd1, hx1⟩ := hx1
    obtain ⟨d2, hd2, hx2⟩ := hx2
    exact hsr (instPath_inj_sr datadir subj ap1 ap2 _ _ (hx1.trans hx2.symm))
  · intro hor
    constructor
    · intro x hx1 hx2
      simp only [avrgPathsOf, plannerResult, mkDayEntry, List.map_map,
        Function.comp, List.mem_map] at hx1 hx2
      obtain ⟨d1, hd1, hx1⟩ := hx1
      obtain ⟨d2, hd2, hx2⟩ := hx2
      obtain ⟨hsr, havg⟩ :=
        avrgPath_inj_sravg datadir subj ap1 ap2 _ _ (hx1.trans hx2.symm)
      rcases hor with hh | hh
      · exact hh hsr
      · exact hh havg
    · intro x hx1 hx2
      simp only [summPathsOf, plannerResult, List.flatMap_cons,
        List.flatMap_nil, List.append_nil, List.mem_append] at hx1 hx2
      rcases hx1 with h | h | h <;> rcases hx2 with g | g | g
      all_goals
        rw [mem_summPathsFor] at h g
        obtain ⟨s1, -, rfl⟩ := h
        obtain ⟨s2, -, g2⟩ := g
        obtain ⟨hsr, havg⟩ := summPathBody_inj _ _ _ _ _ _ _ _ g2
        rcases hor with hh | hh
        · exact hh hsr
        · exact hh havg

set_option maxRecDepth 40000 in
theorem c2_counterexample :
    cexP1 ≠ cexP2 ∧
    Option.map rawPathsOf
        (_get_expected_files_on_disk "d".data "s".data cexP1 cexLocfiles) =
      Option.map rawPathsOf
        (_get_expected_files_on_disk "d".data "s".data cexP2 cexLocfiles) ∧
    Option.map rawPathsOf
        (_get_expected_files_on_disk "d".data "s".data cexP1 cexLocfiles) ≠
      some [] := by decide

set_option maxRecDepth 40000 in
theorem c2_witness :
    (cexP1 = cexP3 → cexEF1 = cexEF3) ∧
    rawPathsOf cexEF1 = rawPathsOf cexEF3 ∧
    (srstr cexP1 ≠ srstr cexP3 →
      ∀ x ∈ instPathsOf cexEF1, x ∉ instPathsOf cexEF3) ∧
    ((srstr cexP1 ≠ srstr cexP3 ∨ avgstr cexP1 ≠ avgstr cexP3) →
      (∀ x ∈ avrgPathsOf cexEF1, x ∉ avrgPathsOf cexEF3) ∧
      (∀ x ∈ summPathsOf cexEF1, x ∉ summPathsOf cexEF3)) :=
  c2_planner_paths_params "d".data "s".data cexP1 cexP3 cexLocfiles
    cexEF1 cexEF3 (by decide) (by decide)

theorem proc_days_artifacts (fs : PStr → Bool) (l : List (Int × DayEntry)) :
    ((l.map (fun de => (de.1,
        ({ src := de.2.src
           raw := (de.2.raw, !fs de.2.raw)
           ulfuncinst := (de.2.ulfuncinst, !fs de.2.ulfuncinst)
           ulfuncavrg := (de.2.ulfuncavrg, !fs de.2.ulfuncavrg) } :
          ProcDay)))).flatMap (fun p => procDayArtifacts p.2)) =
      (l.flatMap (fun p => dayArtifacts p.2)).map (fun q => (q, !fs q)) := by
  induction l with
  | nil => rfl
  | cons a l ih =>
      simp only [procDayArtifacts, dayArtifacts] at ih
      simp [procDayArtifacts, dayArtifacts, ih]

theorem proc_summary_artifacts (fs : PStr → Bool) (l : List (PStr × List PStr)) :
    ((l.map (fun ks => (ks.1, ks.2.map (fun dfn => (dfn, !fs dfn))))).flatMap
        (fun ks => ks.2)) =
      (l.flatMap (fun ks => ks.2)).map (fun q => (q, !fs q)) := by
  induction l with
  | nil => rfl
  | cons a l ih => simp [ih]

/-- C3: the Staleness Resolver pairs every expected artifact path with
`needsBuild = true` iff no file exists at that path — existence is the sole
staleness signal, content is never inspected — and copies each day's
source-file associations through unchanged. -/
theorem c3_files_to_be_processed_spec (fs : PStr → Bool)
    (exptd : ExpectedFiles) :
    procArtifacts (_get_files_to_be_processed fs exptd) =
      (expectedArtifacts exptd).map (fun q => (q, !fs q)) ∧
    (∀ a ∈ procArtifacts (_get_files_to_be_processed fs exptd),
      (a.2 = true ↔ fs a.1 = false)) ∧
    (_get_files_to_be_processed fs exptd).days.map (fun p => (p.1, p.2.src)) =
      exptd.days.map (fun p => (p.1, p.2.src)) := by
  have hmain : procArtifacts (_get_files_to_be_processed fs exptd) =
      (expectedArtifacts exptd).map (fun q => (q, !fs q)) := by
    rw [_get_files_to_be_processed, procArtifacts, expectedArtifacts]
    dsimp only
    rw [proc_days_artifacts, proc_summary_artifacts, List.map_append]
  refine ⟨hmain, fun a ha => ?_, ?_⟩
  · rw [hmain] at ha
    obtain ⟨q, hq, rfl⟩ := List.mem_map.mp ha
    dsimp only
    cases h : fs q <;> simp [h]
  · rw [_get_files_to_be_processed]
    dsimp only
    rw [List.map_map]
    rfl

theorem lookup_append (c1 c2 : FileTimeCache) (p : PStr) :
    (c1 ++ c2).lookup p = ((c1.lookup p).or (c2.lookup p)) := by
  induction c1 with
  | nil => simp
  | cons a c1 ih =>
      obtain ⟨k, v⟩ := a
      by_cases h : (p == k)
      · simp [List.lookup, h]
      · simp [List.lookup, h, ih]

theorem lookup_singleton_self (p : PStr) (v : Int × Int) :
    (([(p, v)] : FileTimeCache).lookup p = some v) := by
  simp [List.lookup]

theorem procFiles_all_hits (reader : PStr → Int × Int) :
    ∀ (files : List PStr) (c : FileTimeCache) (iv : List PStr),
      (∀ p ∈ files, c.lookup p ≠ none) →
      (procFiles reader files (c, iv)).1 = (c, iv) := by
  intro files
  induction files with
  | nil => intro c iv _; rfl
  | cons p ps ih =>
      intro c iv hall
      have hp : c.lookup p ≠ none := hall p (List.mem_cons_self p ps)
      rw [procFiles]
      rcases hsome : c.lookup p with _ | v
      · exact absurd hsome hp
      · have hone : procOneFile reader (c, iv) p = ((c, iv), (p, v)) := by
          rw [procOneFile]
          dsimp only
          rw [hsome]
        rw [hone]
        exact ih c iv (fun q hq => hall q (List.mem_cons_of_mem p hq))

theorem nodup_append_singleton (l : List PStr) (a : PStr)
    (h1 : l.Nodup) (h2 : a ∉ l) : (l ++ [a]).Nodup := by
  rw [List.nodup_append]
  refine ⟨h1, List.nodup_singleton a, ?_⟩
  intro x hx hxa
  rw [List.mem_singleton.mp hxa] at hx
  exact h2 hx

theorem lookup_append_none_iff (c : FileTimeCache) (p q : PStr)
    (v : Int × Int) :
    ((c ++ [(p, v)]).lookup q = none) ↔ (c.lookup q = none ∧ q ≠ p) := by
  rw [lookup_append]
  by_cases hqp : q = p
  · subst hqp
    rw [lookup_singleton_self]
    rcases c.lookup q with _ | w <;> simp [Option.or]
  · have hbeq : (q == p) = false := by
      simp [hqp]
    have hsing : (([(p, v)] : FileTimeCache).lookup q) = none := by
      simp [List.lookup, hbeq]
    rw [hsing]
    rcases c.lookup q with _ | w <;> simp [Option.or, hqp]

theorem procFiles_spec (reader : PStr → Int × Int) :
    ∀ (files : List PStr) (c : FileTimeCache) (iv : List PStr),
      iv.Nodup → (∀ p ∈ iv, c.lookup p ≠ none) →
      ((∀ p v, c.lookup p = some v →
          (procFiles reader files (c, iv)).1.1.lookup p = some v) ∧
       (∀ p, p ∈ (procFiles reader files (c, iv)).1.2 ↔
          (p ∈ iv ∨ (p ∈ files ∧ c.lookup p = none))) ∧
       (procFiles reader files (c, iv)).1.2.Nodup ∧
       (∀ p ∈ (procFiles reader files (c, iv)).1.2,
          (procFiles reader files (c, iv)).1.1.lookup p ≠ none) ∧
       (∀ p ∈ files, (procFiles reader files (c, iv)).1.1.lookup p ≠ none) ∧
       (∀ p ∈ files, c.lookup p = none →
          (procFiles reader files (c, iv)).1.1.lookup p = some (reader p)) ∧
       (∀ p, c.lookup p = none → p ∉ files →
          (procFiles reader files (c, iv)).1.1.lookup p = none)) := by
  intro files
  induction files with
  | nil =>
      intro c iv hnd hcached
      refine ⟨fun p v h => h, fun p => ?_, hnd, hcached,
        fun p hp => absurd hp (List.not_mem_nil p),
        fun p hp _ => absurd hp (List.not_mem_nil p),
        fun p hp _ => hp⟩
      rw [procFiles]
      simp
  | cons p ps ih =>
      intro c iv hnd hcached
      rcases hsome : c.lookup p with _ | v
      · -- cache miss: the reader is invoked and the result memoized
        have hone : procOneFile reader (c, iv) p =
            ((c ++ [(p, reader p)], iv ++ [p]), (p, reader p)) := by
          rw [procOneFile]
          dsimp only
          rw [hsome]
        have hpiv : p ∉ iv := fun hmem => hcached p hmem hsome
        have hnd' : (iv ++ [p]).Nodup := nodup_append_singleton iv p hnd hpiv
        have hcached' : ∀ q ∈ iv ++ [p],
            (c ++ [(p, reader p)]).lookup q ≠ none := by
          intro q hq
          rw [lookup_append]
          rcases List.mem_append.mp hq with hq | hq
          · rcases hc : c.lookup q with _ | w
            · exact absurd hc (hcached q hq)
            · simp
          · rw [List.mem_singleton.mp hq, hsome, lookup_singleton_self]
            simp
        obtain ⟨ih1, ih2, ih3, ih4, ih5, ih6, ih7⟩ :=
          ih (c ++ [(p, reader p)]) (iv ++ [p]) hnd' hcached'
        have hself : (c ++ [(p, reader p)]).lookup p = some (reader p) := by
          rw [lookup_append, hsome, lookup_singleton_self]
          rfl
        rw [procFiles, hone]
        dsimp only
        refine ⟨?_, ?_, ih3, ih4, ?_, ?_, ?_⟩
        · intro q w hq
          refine ih1 q w ?_
          rw [lookup_append, hq]
          rfl
        · intro q
          rw [ih2 q]
          constructor
          · rintro (hq | ⟨hq, hmiss⟩)
            · rcases List.mem_append.mp hq with hq | hq
              · exact Or.inl hq
              · rw [List.mem_singleton.mp hq]
                exact Or.inr ⟨List.mem_cons_self p ps, hsome⟩
            · rw [lookup_append_none_iff] at hmiss
              exact Or.inr ⟨List.mem_cons_of_mem p hq, hmiss.1⟩
          · rintro (hq | ⟨hq, hmiss⟩)
            · exact Or.inl (List.mem_append.mpr (Or.inl hq))
            · by_cases hqp : q = p
              · exact Or.inl (List.mem_append.mpr (Or.inr (by simp [hqp])))
              · rcases List.mem_cons.mp hq with rfl | hq
                · exact absurd rfl hqp
                · refine Or.inr ⟨hq, ?_⟩
                  rw [lookup_append_none_iff]
                  exact ⟨hmiss, hqp⟩
        · intro q hq
          rcases List.mem_cons.mp hq with rfl | hq
          · rw [ih1 q (reader q) hself]
            simp
          · exact ih5 q hq
        · intro q hq hmiss
          rcases List.mem_cons.mp hq with rfl | hq
          · exact ih1 q (reader q) hself
          · by_cases hqp : q = p
            · rw [hqp]
              exact ih1 p (reader p) hself
            · refine ih6 q hq ?_
              rw [lookup_append_none_iff]
              exact ⟨hmiss, hqp⟩
        · intro q hqnone hqnotin
          refine ih7 q ?_ (fun hq => hqnotin (List.mem_cons_of_mem p hq))
          rw [lookup_append_none_iff]
          exact ⟨hqnone, fun hqp => hqnotin (by rw [hqp]; exact List.mem_cons_self p ps)⟩
      · -- cache hit: the reader is bypassed entirely
        have hone : procOneFile reader (c, iv) p = ((c, iv), (p, v)) := by
          rw [procOneFile]
          dsimp only
          rw [hsome]
        obtain ⟨ih1, ih2, ih3, ih4, ih5, ih6, ih7⟩ := ih c iv hnd hcached
        rw [procFiles, hone]
        dsimp only
        refine ⟨ih1, ?_, ih3, ih4, ?_, ?_,
          fun q hqnone hqnotin =>
            ih7 q hqnone (fun hq => hqnotin (List.mem_cons_of_mem p hq))⟩
        · intro q
          rw [ih2 q]
          constructor
          · rintro (hq | ⟨hq, hmiss⟩)
            · exact Or.inl hq
            · exact Or.inr ⟨List.mem_cons_of_mem p hq, hmiss⟩
          · rintro (hq | ⟨hq, hmiss⟩)
            · exact Or.inl hq
            · rcases List.mem_cons.mp hq with rfl | hq
              · rw [hsome] at hmiss
                cases hmiss
              · exact Or.inr ⟨hq, hmiss⟩
        · intro q hq
          rcases List.mem_cons.mp hq with rfl | hq
          · rw [ih1 q v hsome]
            simp
          · exact ih5 q hq
        · intro q hq hmiss
          rcases List.mem_cons.mp hq with rfl | hq
          · rw [hmiss] at hsome
            cases hsome
          · exact ih6 q hq hmiss

theorem locDetailsAux_all_hits (reader : PStr → Int × Int) :
    ∀ (chfiles : List (PStr × List PStr)) (c : FileTimeCache) (iv : List PStr),
      (∀ p ∈ chfiles.flatMap Prod.snd, c.lookup p ≠ none) →
      (locDetailsAux reader chfiles (c, iv)).2 = (c, iv) := by
  intro chfiles
  induction chfiles with
  | nil => intro c iv _; rfl
  | cons ch rest ih =>
      intro c iv hall
      have hch : (procFiles reader ch.2 (c, iv)).1 = (c, iv) :=
        procFiles_all_hits reader ch.2 c iv
          (fun p hp => hall p (List.mem_flatMap.mpr
            ⟨ch, List.mem_cons_self ch rest, hp⟩))
      rw [locDetailsAux, hch]
      exact ih c iv (fun p hp => hall p (by
        rw [List.flatMap_cons]
        exact List.mem_append.mpr (Or.inr hp)))

theorem locDetailsAux_spec (reader : PStr → Int × Int) :
    ∀ (chfiles : List (PStr × List PStr)) (c : FileTimeCache) (iv : List PStr),
      iv.Nodup → (∀ p ∈ iv, c.lookup p ≠ none) →
      ((∀ p v, c.lookup p = some v →
          (locDetailsAux reader chfiles (c, iv)).2.1.lookup p = some v) ∧
       (∀ p, p ∈ (locDetailsAux reader chfiles (c, iv)).2.2 ↔
          (p ∈ iv ∨ (p ∈ chfiles.flatMap Prod.snd ∧ c.lookup p = none))) ∧
       (locDetailsAux reader chfiles (c, iv)).2.2.Nodup ∧
       (∀ p ∈ (locDetailsAux reader chfiles (c, iv)).2.2,
          (locDetailsAux reader chfiles (c, iv)).2.1.lookup p ≠ none) ∧
       (∀ p ∈ chfiles.flatMap Prod.snd,
          (locDetailsAux reader chfiles (c, iv)).2.1.lookup p ≠ none) ∧
       (∀ p ∈ chfiles.flatMap Prod.snd, c.lookup p = none →
          (locDetailsAux reader chfiles (c, iv)).2.1.lookup p =
            some (reader p))) := by
  intro chfiles
  induction chfiles with
  | nil =>
      intro c iv hnd hcached
      refine ⟨fun p v h => h, fun p => by simp [locDetailsAux], hnd, hcached,
        fun p hp => absurd hp (by simp),
        fun p hp _ => absurd hp (by simp)⟩
  | cons ch rest ih =>
      intro c iv hnd hcached
      obtain ⟨p1, p2, p3, p4, p5, p6, p7⟩ :=
        procFiles_spec reader ch.2 c iv hnd hcached
      have hsteta : (procFiles reader ch.2 (c, iv)).1 =
          ((procFiles reader ch.2 (c, iv)).1.1,
           (procFiles reader ch.2 (c, iv)).1.2) := rfl
      obtain ⟨ih1, ih2, ih3, ih4, ih5, ih6⟩ :=
        ih (procFiles reader ch.2 (c, iv)).1.1
          (procFiles reader ch.2 (c, iv)).1.2 p3 p4
      rw [locDetailsAux]
      dsimp only
      rw [hsteta]
      have hdisc : ∀ p : PStr, p ∈ (ch :: rest).flatMap Prod.snd ↔
          (p ∈ ch.2 ∨ p ∈ rest.flatMap Prod.snd) := by
        intro p
        rw [List.flatMap_cons, List.mem_append]
      refine ⟨?_, ?_, ih3, ih4, ?_, ?_⟩
      · intro p v hp
        exact ih1 p v (p1 p v hp)
      · intro p
        rw [ih2 p, p2 p, hdisc p]
        constructor
        · rintro ((hp | ⟨hp, hmiss⟩) | ⟨hp, hmiss⟩)
          · exact Or.inl hp
          · exact Or.inr ⟨Or.inl hp, hmiss⟩
          · refine Or.inr ⟨Or.inr hp, ?_⟩
            rcases hc : c.lookup p with _ | w
            · rfl
            · rw [p1 p w hc] at hmiss
              cases hmiss
        · rintro (hp | ⟨hp | hp, hmiss⟩)
          · exact Or.inl (Or.inl hp)
          · exact Or.inl (Or.inr ⟨hp, hmiss⟩)
          · by_cases hch : p ∈ ch.2
            · exact Or.inl (Or.inr ⟨hch, hmiss⟩)
            · exact Or.inr ⟨hp, p7 p hmiss hch⟩
      · intro p hp
        rcases (hdisc p).mp hp with hp | hp
        · intro hnone
          rcases hcc : (procFiles reader ch.2 (c, iv)).1.1.lookup p with _ | w
          · exact p5 p hp hcc
          · rw [ih1 p w hcc] at hnone
            cases hnone
        · exact ih5 p hp
      · intro p hp hmiss
        rcases (hdisc p).mp hp with hp | hp
        · exact ih1 p (reader p) (p6 p hp hmiss)
        · by_cases hch : p ∈ ch.2
          · exact ih1 p (reader p) (p6 p hch hmiss)
          · exact ih6 p hp (p7 p hmiss hch)

/-- C6: during File Inventory, for every discovered file the external reader
is invoked iff the file's path is not already a key of the file-time cache;
each path is invoked at most once; existing cache entries are preserved;
after processing, an invoked path maps in the cache to the reader's
first/last timestamps; every discovered path ends up cached, so a second run
over the same files sharing the journal invokes the reader on nothing. -/
theorem c6_loc_file_details_cache (reader : PStr → Int × Int)
    (chfiles : List (PStr × List PStr)) (cache : FileTimeCache)
    (locfiles : List (PStr × List (PStr × (Int × Int))))
    (cache' : FileTimeCache) (inv : List PStr)
    (h : _get_loc_file_details reader chfiles cache = (locfiles, cache', inv)) :
    (∀ p, p ∈ inv ↔
      ((∃ ch ∈ chfiles, p ∈ ch.2) ∧ cache.lookup p = none)) ∧
    inv.Nodup ∧
    (∀ p v, cache.lookup p = some v → cache'.lookup p = some v) ∧
    (∀ p ∈ inv, cache'.lookup p = some (reader p)) ∧
    (∀ p, (∃ ch ∈ chfiles, p ∈ ch.2) → cache'.lookup p ≠ none) ∧
    (_get_loc_file_details reader chfiles cache').2.2 = [] := by
  have hc' : cache' = (locDetailsAux reader chfiles (cache, [])).2.1 := by
    rw [_get_loc_file_details] at h
    rw [h]
  have hinv : inv = (locDetailsAux reader chfiles (cache, [])).2.2 := by
    rw [_get_loc_file_details] at h
    rw [h]
  obtain ⟨a1, a2, a3, a4, a5, a6⟩ :=
    locDetailsAux_spec reader chfiles cache [] List.nodup_nil
      (fun p hp => absurd hp (List.not_mem_nil p))
  subst hc'
  subst hinv
  have hdisc : ∀ p : PStr, (∃ ch ∈ chfiles, p ∈ ch.2) ↔
      p ∈ chfiles.flatMap Prod.snd := by
    intro p
    rw [List.mem_flatMap]
  refine ⟨?_, a3, a1, ?_, ?_, ?_⟩
  · intro p
    rw [a2 p, hdisc p]
    simp
  · intro p hp
    have := (a2 p).mp hp
    rcases this with hmem | ⟨hmem, hmiss⟩
    · exact absurd hmem (List.not_mem_nil p)
    · exact a6 p hmem hmiss
  · intro p hp
    exact a5 p ((hdisc p).mp hp)
  · rw [_get_loc_file_details]
    have := locDetailsAux_all_hits reader chfiles
      (locDetailsAux reader chfiles (cache, [])).2.1 []
      (fun p hp => a5 p hp)
    rw [this]

theorem c6_witness :
    (∀ p, p ∈ (_get_loc_file_details cexReader cexChfiles cexCache).2.2 ↔
      ((∃ ch ∈ cexChfiles, p ∈ ch.2) ∧ cexCache.lookup p = none)) ∧
    (_get_loc_file_details cexReader cexChfiles cexCache).2.2.Nodup ∧
    (∀ p v, cexCache.lookup p = some v →
      (_get_loc_file_details cexReader cexChfiles cexCache).2.1.lookup p =
        some v) ∧
    (∀ p ∈ (_get_loc_file_details cexReader cexChfiles cexCache).2.2,
      (_get_loc_file_details cexReader cexChfiles cexCache).2.1.lookup p =
        some (cexReader p)) ∧
    (∀ p, (∃ ch ∈ cexChfiles, p ∈ ch.2) →
      (_get_loc_file_details cexReader cexChfiles cexCache).2.1.lookup p ≠
        none) ∧
    (_get_loc_file_details cexReader cexChfiles
      (_get_loc_file_details cexReader cexChfiles cexCache).2.1).2.2 = [] :=
  c6_loc_file_details_cache cexReader cexChfiles cexCache
    (_get_loc_file_details cexReader cexChfiles cexCache).1
    (_get_loc_file_details cexReader cexChfiles cexCache).2.1
    (_get_loc_file_details cexReader cexChfiles cexCache).2.2 rfl

theorem dictInsert_fresh (k : PStr) (v : SessionVal) :
    ∀ (l : List (PStr × SessionVal)), (∀ kv ∈ l, kv.1 ≠ k) →
      dictInsert k v l = l ++ [(k, v)] := by
  intro l
  induction l with
  | nil => intro _; rfl
  | cons a l ih =>
      intro hfresh
      obtain ⟨k', v'⟩ := a
      rw [dictInsert, if_neg (hfresh (k', v') (List.mem_cons_self _ _)),
        ih (fun kv hkv => hfresh kv (List.mem_cons_of_mem _ hkv)),
        List.cons_append]

theorem lookup_sessions_append (k : PStr) (v : SessionVal) :
    ∀ (l : List (PStr × SessionVal)), (∀ kv ∈ l, kv.1 ≠ k) →
      (l ++ [(k, v)]).lookup k = some v := by
  intro l
  induction l with
  | nil => simp [List.lookup]
  | cons a l ih =>
      intro hfresh
      obtain ⟨k', v'⟩ := a
      have hne : ¬(k = k') :=
        fun h => (hfresh (k', v') (List.mem_cons_self _ _)) h.symm
      have hbeq : (k == k') = false := by simp [hne]
      rw [List.cons_append]
      rw [List.lookup]
      rw [hbeq]
      exact ih (fun kv hkv => hfresh kv (List.mem_cons_of_mem _ hkv))

/-- C8: the journal save writes every existing session record back unchanged
and in place, preserves every file-time cache entry (given that the
in-memory cache extends the journal's, as the orchestration guarantees: it
is loaded from the same file and only added to), and adds exactly one new
session record keyed by the current session's timestamp, holding the work
plan and the analysis parameters. -/
theorem c8_update_bookkeeping_spec (filedata : Journal)
    (memFiletimes : FileTimeCache) (currsess : PStr)
    (newbkdata : List (PStr × PStr)) (ap : AnalysisParams)
    (hext : ∀ p v, filedata.filetimes.lookup p = some v →
      memFiletimes.lookup p = some v)
    (hfresh : ∀ kv ∈ filedata.summary, kv.1 ≠ currsess) :
    (_update_bookkeping_file filedata memFiletimes currsess newbkdata
        ap).summary =
      filedata.summary ++ [(currsess, ⟨newbkdata, ap⟩)] ∧
    (∀ p v, filedata.filetimes.lookup p = some v →
      (_update_bookkeping_file filedata memFiletimes currsess newbkdata
          ap).filetimes.lookup p = some v) ∧
    (_update_bookkeping_file filedata memFiletimes currsess newbkdata
        ap).summary.lookup currsess = some ⟨newbkdata, ap⟩ := by
  have hs : (_update_bookkeping_file filedata memFiletimes currsess newbkdata
      ap).summary = filedata.summary ++ [(currsess, ⟨newbkdata, ap⟩)] := by
    rw [_update_bookkeping_file]
    exact dictInsert_fresh currsess _ filedata.summary hfresh
  refine ⟨hs, fun p v h => hext p v h, ?_⟩
  rw [hs]
  exact lookup_sessions_append currsess _ filedata.summary hfresh

theorem c8_witness :
    (_update_bookkeping_file
        ⟨[("y.csv".data, (3, 4))], [("01/01/24 10:00:00".data, ⟨[], cexP1⟩)]⟩
        ([("y.csv".data, (3, 4))] ++ [("x.csv".data, (0, 1))])
        "02/01/24 11:00:00".data [] cexP2).summary =
      [("01/01/24 10:00:00".data, ⟨[], cexP1⟩)] ++
        [("02/01/24 11:00:00".data, ⟨[], cexP2⟩)] ∧
    (∀ p v,
      (([("y.csv".data, (3, 4))] : FileTimeCache).lookup p = some v) →
      (_update_bookkeping_file
          ⟨[("y.csv".data, (3, 4))], [("01/01/24 10:00:00".data, ⟨[], cexP1⟩)]⟩
          ([("y.csv".data, (3, 4))] ++ [("x.csv".data, (0, 1))])
          "02/01/24 11:00:00".data [] cexP2).filetimes.lookup p = some v) ∧
    (_update_bookkeping_file
        ⟨[("y.csv".data, (3, 4))], [("01/01/24 10:00:00".data, ⟨[], cexP1⟩)]⟩
        ([("y.csv".data, (3, 4))] ++ [("x.csv".data, (0, 1))])
        "02/01/24 11:00:00".data [] cexP2).summary.lookup
      "02/01/24 11:00:00".data = some ⟨[], cexP2⟩ :=
  c8_update_bookkeeping_spec
    ⟨[("y.csv".data, (3, 4))], [("01/01/24 10:00:00".data, ⟨[], cexP1⟩)]⟩
    ([("y.csv".data, (3, 4))] ++ [("x.csv".data, (0, 1))])
    "02/01/24 11:00:00".data [] cexP2
    (fun p v h => by
      rw [lookup_append, h]
      rfl)
    (by decide)

end UlfDash
